import Mathlib

/-!
# firmware-utils: `nosimg-enc` block codec and `cvimg` header+checksum framer

Shallow embedding of `src/nosimg-enc.c` and `src/cvimg.c`.

Bytes are natural numbers below 256 and byte sequences are `List Nat`.
Fixed-width C arithmetic is written out with explicit `% 2 ^ w`.
-/

set_option autoImplicit false

namespace FirmwareUtils

/-! ## nosimg-enc.c -/

/-- The constant `ENCODE_BLKLEN` of nosimg-enc.c. -/
def ENCODE_BLKLEN : Nat := 0x100

/-- The constant `ENCODE_BLOCKS` of nosimg-enc.c. -/
def ENCODE_BLOCKS : Nat := 2

/-- The constant `EXIT_SUCCESS` of stdlib.h. -/
def EXIT_SUCCESS : Nat := 0

/-- The constant `EXIT_FAILURE` of stdlib.h. -/
def EXIT_FAILURE : Nat := 1

/-- The `patterns` table of nosimg-enc.c (64 entries of type `uint32_t`). -/
def patterns : List Nat := [
  0xeeddcc21,  0x5355eecc,  0xdd55807e,  0x00000000,
  0xcdbddfae,  0xbb9b8901,  0x70e5ccdd,  0xf6fc8364,
  0xecddcef1,  0xe354fed0,  0xbdabdde1,  0xe4b4d583,
  0xedfed0cd,  0xb655cca3,  0xedd5c67e,  0xddcc2153,
  0xec4ddc00,  0x5355cdc3,  0x2201807e,  0xefbc7566,
  0xa6c0cc2f,  0xfed0eecc,  0xdd550101,  0x0101c564,
  0x9945ab32,  0x55807eef,  0x55807eef,  0xbc756689,
  0xe31d83dd,  0xfe558eab,  0x7d55807e,  0xff01ac66,
  0x0ec992d9,  0x73e50101,  0xbde510ce,  0x0101bae8,
  0x3edd81a1,  0x53330101,  0x9ac510aa,  0x01ce8ae1,
  0xb1fb0080,  0x53770000,  0x70dc0001,  0x0000cbb1,
  0xa0300000,  0x55a60000,  0xcabd0101,  0x0000c9b2,
  0x81900100,  0x5a210001,  0x79bc0100,  0x78007bb3,
  0xd4970100,  0x5355a9fc,  0xdda501be,  0xafc175c5,
  0x8ed77700,  0x55d00dac,  0x0155807e,  0xefbc7ee6,
  0xf16c5200,  0x331698cc,  0x01010101,  0x00007988]

/-- Keystream byte of position `i`: the value `tmp & 0xff` of `EncodeBlock100`
after `tmp = patterns[i / sizeof(uint32_t)]` and
`tmp >>= (sizeof(uint32_t) - i % sizeof(uint32_t) - 1) * 8`. -/
def keyByte (i : Nat) : Nat :=
  let tmp := patterns.getD (i / 4) 0
  let tmp := tmp >>> ((4 - i % 4 - 1) * 8)
  tmp &&& 0xff

/-- One iteration of the loop body of `EncodeBlock100` on the byte `d = data[i]`:
`data[i] -= (tmp & 0xff) * (decode ? -1 : 1)`.
The product is taken in `unsigned int` (so `-1` is `2 ^ 32 - 1`), the
subtraction in `unsigned int` as well, and the store truncates to `uint8_t`. -/
def encodeByte (d i : Nat) (decode : Bool) : Nat :=
  let m := (keyByte i * (if decode then 2 ^ 32 - 1 else 1)) % 2 ^ 32
  ((d + 2 ^ 32 - m) % 2 ^ 32) % 256

/-- The function `EncodeBlock100(data, decode)`: the loop `for (i = 0; i < ENCODE_BLKLEN; i++)`
updating `data[i]` in place. -/
def EncodeBlock100 (data : List Nat) (decode : Bool) : List Nat :=
  (List.range ENCODE_BLKLEN).foldl
    (fun d i => d.set i (encodeByte (d.getD i 0) i decode)) data

/-- Outcome of a run of a tool: exit status and the bytes written to the
output file. -/
structure Run where
  ret : Nat
  out : List Nat
deriving DecidableEq, Repr

/-- The loop `for (i = 0; i < ENCODE_BLOCKS; i++)` of `main` in nosimg-enc.c,
with `k` iterations left, `inp` the unread part of the input file and `out`
the bytes written so far. `fread` on the file returns the next
`ENCODE_BLKLEN` bytes, or fewer at end of file. The result is the failure
status with the output so far, or the unread input and the output so far. -/
def encodeBlocks (decode : Bool) : Nat → List Nat → List Nat → Run ⊕ (List Nat × List Nat)
  | 0, inp, out => Sum.inr (inp, out)
  | k + 1, inp, out =>
    let buf := inp.take ENCODE_BLKLEN
    let n := buf.length
    if n < ENCODE_BLKLEN then
      Sum.inl { ret := EXIT_FAILURE, out := out }
    else
      encodeBlocks decode k (inp.drop ENCODE_BLKLEN)
        (out ++ (EncodeBlock100 buf decode).take n)

/-- Size of the working buffer `buf` of `main` in nosimg-enc.c. -/
def COPY_BUF_LEN : Nat := 0x10000

/-- The loop `while ((n = fread(buf, 1, sizeof(buf), in)) > 0)` of `main` in
nosimg-enc.c, absent I/O errors: each chunk read is written unchanged. -/
def copyRemaining (inp out : List Nat) : List Nat :=
  let buf := inp.take COPY_BUF_LEN
  let n := buf.length
  if h : n > 0 then copyRemaining (inp.drop COPY_BUF_LEN) (out ++ buf.take n) else out
termination_by inp.length
decreasing_by
  have h2 : 0 < (List.take COPY_BUF_LEN inp).length := h
  simp only [List.length_drop]
  simp only [List.length_take, COPY_BUF_LEN] at h2
  simp only [COPY_BUF_LEN]
  omega

/-- The function `main` of nosimg-enc.c after the files are opened, absent I/O errors:
`input` is the content of the input file, `decode` the `-d` flag. -/
def nosimgMain (input : List Nat) (decode : Bool) : Run :=
  match encodeBlocks decode ENCODE_BLOCKS input [] with
  | Sum.inl failed => failed
  | Sum.inr (rest, out) => { ret := EXIT_SUCCESS, out := copyRemaining rest out }

/-! ## cvimg.c -/

/-- The constant `SIGNATURE_LEN` of cvimg.c. -/
def SIGNATURE_LEN : Nat := 4

/-- The constant `HEADER_LEN` of cvimg.c. -/
def HEADER_LEN : Nat := 16

/-- The constant `BUF_LEN` of cvimg.c. -/
def BUF_LEN : Nat := 0x10000

/-- The constant `DEF_SIGNATURE` of cvimg.c: the four bytes of the text cs6c. -/
def DEF_SIGNATURE : List Nat := [0x63, 0x73, 0x36, 0x63]

/-- The constant `UINT_MAX` of limits.h for a 32-bit `unsigned int`. -/
def UINT_MAX : Nat := 2 ^ 32 - 1

/-- Number of values of `unsigned long` and `size_t` (64 bits, LP64). -/
def ULONG_MOD : Nat := 2 ^ 64

/-- Largest value of `off_t`, the type of `st_size` (64 bits, signed). -/
def OFF_T_MAX : Nat := 2 ^ 63 - 1

/-- What cvimg.c leaves to the C implementation it is compiled for:
`littleEndian` is `__BYTE_ORDER == __LITTLE_ENDIAN`, `charSigned` says
whether plain `char` is a signed type. -/
structure Host where
  littleEndian : Bool
  charSigned : Bool
deriving DecidableEq, Repr

/-- The function `bswap_16` of byteswap.h on an `unsigned short`. -/
def bswap_16 (x : Nat) : Nat := (x % 256) * 256 + (x / 256) % 256

/-- The function `bswap_32` of byteswap.h on an `unsigned int`. -/
def bswap_32 (x : Nat) : Nat :=
  (x % 256) * 2 ^ 24 + (x / 2 ^ 8 % 256) * 2 ^ 16 + (x / 2 ^ 16 % 256) * 2 ^ 8
    + (x / 2 ^ 24 % 256)

/-- The macro `HOST_TO_BE16` of cvimg.c. -/
def HOST_TO_BE16 (host : Host) (x : Nat) : Nat :=
  if host.littleEndian then bswap_16 x else x

/-- The macro `HOST_TO_BE32` of cvimg.c. -/
def HOST_TO_BE32 (host : Host) (x : Nat) : Nat :=
  if host.littleEndian then bswap_32 x else x

/-- Value of `*(unsigned short *)buf` when `buf[0] = a` and `buf[1] = b`. -/
def load16 (host : Host) (a b : Nat) : Nat :=
  if host.littleEndian then a + b * 256 else a * 256 + b

/-- Bytes in memory of an `unsigned short` holding `v`. -/
def storeBytes16 (host : Host) (v : Nat) : List Nat :=
  if host.littleEndian then [v % 256, v / 256 % 256] else [v / 256 % 256, v % 256]

/-- Bytes in memory of an `unsigned int` holding `v`. -/
def storeBytes32 (host : Host) (v : Nat) : List Nat :=
  if host.littleEndian then
    [v % 256, v / 2 ^ 8 % 256, v / 2 ^ 16 % 256, v / 2 ^ 24 % 256]
  else
    [v / 2 ^ 24 % 256, v / 2 ^ 16 % 256, v / 2 ^ 8 % 256, v % 256]

/-- Value added by `sum += *buf` for a `char` whose byte is `b`: the byte
itself, or its sign extension to `unsigned long` where `char` is signed. -/
def charValue (host : Host) (b : Nat) : Nat :=
  if host.charSigned && decide (128 ≤ b) then ULONG_MOD - 256 + b else b

/-- The loop of `calcSum` on the bytes `buf[0 .. len)` still to be summed,
with the running `sum`. -/
def calcSumLoop (host : Host) : List Nat → Nat → Nat
  | a :: b :: rest, sum =>
    let sum := (sum + HOST_TO_BE16 host (load16 host a b)) % ULONG_MOD
    let sum :=
      if rest.length = 1 then (sum + charValue host (rest.headD 0)) % ULONG_MOD else sum
    calcSumLoop host rest sum
  | _, sum => sum

/-- The function `calcSum(buf, len)` of cvimg.c on the bytes `buf[0 .. len)`. -/
def calcSum (host : Host) (buf : List Nat) : Nat :=
  calcSumLoop host buf 0

/-- The type `struct cvimg_header`: the signature bytes and the three `unsigned int`
fields as stored. -/
structure CvimgHeader where
  signature : List Nat
  startAddr : Nat
  burnAddr : Nat
  len : Nat
deriving DecidableEq, Repr

/-- Memory image of the packed `struct cvimg_header`. -/
def headerImage (host : Host) (h : CvimgHeader) : List Nat :=
  h.signature ++ storeBytes32 host h.startAddr ++ storeBytes32 host h.burnAddr
    ++ storeBytes32 host h.len

/-- Contents of `buf` after `bytes` are copied to its start (`memcpy`,
`fread`); the rest of the buffer keeps what it held. -/
def copyInto (buf : Nat → Nat) (bytes : List Nat) : Nat → Nat :=
  fun i => if i < bytes.length then bytes.getD i 0 else buf i

/-- The bytes `buf[0 .. n)`, as `fwrite(buf, 1, n, out)` writes them. -/
def bufBytes (buf : Nat → Nat) (n : Nat) : List Nat :=
  (List.range n).map buf

/-- The store `buf[i] = v`. The buffer has `BUF_LEN` elements. A store at an
index of `BUF_LEN` or more is outside the array: C leaves the behaviour of the
program undefined from there on. The model then leaves `buf` as it is and
raises the flag; what a run writes is only stated for runs whose flag stays
down. -/
def storeByte (buf : Nat → Nat) (i v : Nat) : (Nat → Nat) × Bool :=
  if i < BUF_LEN then (fun j => if j = i then v else buf j, false) else (buf, true)

/-- State of the write phase of `main` in cvimg.c: contents of `buf`, the
running `sum`, the bytes written to the output file, and whether a store was
made past the end of `buf`. -/
structure LoopState where
  buf : Nat → Nat
  sum : Nat
  out : List Nat
  overrun : Bool

/-- One iteration of `while ((n = fread(buf, 1, BUF_LEN, in)) > 0)` of `main`
in cvimg.c, for the chunk that `fread` returned. -/
def chunkStep (host : Host) (st : LoopState) (chunk : List Nat) : LoopState :=
  let n := chunk.length
  let buf := copyInto st.buf chunk
  let sum := (st.sum + calcSum host (bufBytes buf n)) % ULONG_MOD
  if n % 2 ≠ 0 then
    let n := n + 1
    let stored := storeByte buf n 0
    { buf := stored.1, sum := sum, out := st.out ++ bufBytes stored.1 n,
      overrun := st.overrun || stored.2 }
  else
    { buf := buf, sum := sum, out := st.out ++ bufBytes buf n, overrun := st.overrun }

/-- The successive non-empty results of `fread(buf, 1, BUF_LEN, in)` on a file
holding `inp`, absent I/O errors: full chunks of `BUF_LEN` bytes, then what is
left. -/
def freadChunks (inp : List Nat) : List (List Nat) :=
  if h : inp = [] then []
  else inp.take BUF_LEN :: freadChunks (inp.drop BUF_LEN)
termination_by inp.length
decreasing_by
  have h2 : 0 < inp.length := List.length_pos.mpr h
  simp only [List.length_drop, BUF_LEN]
  omega

/-- The summary printed on success: `data len`, `total len`, `checksum`. -/
structure Report where
  dataLen : Nat
  totalLen : Nat
  checksum : Nat
deriving DecidableEq, Repr

/-- Result of the write phase: bytes written, the value of `checksum` before
its conversion for the store, and the overrun flag. -/
structure Written where
  out : List Nat
  checksum : Nat
  overrun : Bool
deriving DecidableEq, Repr

/-- The write phase of `main` in cvimg.c (from `memcpy(buf, &header, HEADER_LEN)`
to the write of the checksum) over a given sequence of `fread` results, absent
I/O errors. `stack` is what the storage of `buf` held on entry. -/
def writeChunks (host : Host) (header : CvimgHeader) (stack : Nat → Nat)
    (chunks : List (List Nat)) : Written :=
  let buf := copyInto stack ((headerImage host header).take HEADER_LEN)
  let st0 : LoopState :=
    { buf := buf, sum := 0, out := bufBytes buf HEADER_LEN, overrun := false }
  let st := chunks.foldl (chunkStep host) st0
  let checksum := ((((ULONG_MOD - 1 - st.sum) &&& 0xFFFF) + 1) % ULONG_MOD) % 2 ^ 16
  let stored := HOST_TO_BE16 host checksum
  let buf := copyInto st.buf (storeBytes16 host stored)
  { out := st.out ++ bufBytes buf 2, checksum := checksum, overrun := st.overrun }

/-- The write phase of `main` in cvimg.c on the input file `payload`: the
header fields are set, and the header, the data and the checksum are written.
`fread` returns the chunks `freadChunks payload`. -/
def cvimgWrite (host : Host) (signature : List Nat) (startAddr burnAddr : Nat)
    (stack : Nat → Nat) (payload : List Nat) : Written :=
  let st_size := payload.length
  let header : CvimgHeader :=
    { signature := signature
      startAddr := HOST_TO_BE32 host startAddr % 2 ^ 32
      burnAddr := HOST_TO_BE32 host burnAddr % 2 ^ 32
      len := HOST_TO_BE32 host ((st_size + 2) % ULONG_MOD) % 2 ^ 32 }
  writeChunks host header stack (freadChunks payload)

/-- Outcome of a run of cvimg: exit status, bytes written to the output file,
the printed summary if any, and the overrun flag. -/
structure FrameRun where
  ret : Nat
  out : List Nat
  report : Option Report
  overrun : Bool
deriving DecidableEq, Repr

/-- The variable `size` of `main` in cvimg.c at the size check:
`status.st_size + sizeof(checksum)`, incremented when odd. -/
def paddedSize (st_size : Nat) : Nat :=
  let size := (st_size + 2) % ULONG_MOD
  if size % 2 ≠ 0 then (size + 1) % ULONG_MOD else size

/-- The function `main` of cvimg.c after option parsing, absent I/O errors: `signature` is
`header.signature`, `startAddr` and `burnAddr` the parsed addresses, `stack`
the prior contents of the storage of `buf`, `payload` the input file. -/
def cvimgMain (host : Host) (signature : List Nat) (startAddr burnAddr : Nat)
    (stack : Nat → Nat) (payload : List Nat) : FrameRun :=
  let size := paddedSize payload.length
  if size > UINT_MAX then
    { ret := EXIT_FAILURE, out := [], report := none, overrun := false }
  else
    let w := cvimgWrite host signature startAddr burnAddr stack payload
    { ret := EXIT_SUCCESS, out := w.out,
      report := some
        { dataLen := (size + ULONG_MOD - 2) % ULONG_MOD
          totalLen := (size + HEADER_LEN) % ULONG_MOD
          checksum := HOST_TO_BE16 host (HOST_TO_BE16 host w.checksum) },
      overrun := w.overrun }

/-! ## Reference notions used in the statements -/

/-- The two bytes of a 16-bit value, most significant first. -/
def be16 (x : Nat) : List Nat := [x / 256 % 256, x % 256]

/-- The four bytes of a 32-bit value, most significant first. -/
def be32 (x : Nat) : List Nat :=
  [x / 2 ^ 24 % 256, x / 2 ^ 16 % 256, x / 2 ^ 8 % 256, x % 256]

/-- Every element of the sequence is a byte. -/
def IsBytes (l : List Nat) : Prop := ∀ b ∈ l, b < 256

instance (l : List Nat) : Decidable (IsBytes l) := by
  unfold IsBytes; infer_instance

/-- Sum of a byte sequence read as successive big-endian 16-bit words; a
final unpaired byte is added as it is. -/
def beWordSum : List Nat → Nat
  | a :: b :: rest => a * 256 + b + beWordSum rest
  | [a] => a
  | [] => 0

/-- The checksum of the specification for a sum `s`: `(~s + 1) mod 2^16`. -/
def negate16 (s : Nat) : Nat := (2 ^ 16 - s % 2 ^ 16) % 2 ^ 16

/-- The 256-byte sequence obtained by writing the entries of the pattern
table in order, each most significant byte first. -/
def patternBytes : List Nat := patterns.flatMap be32

/-! ### Lemmas on the block transform -/

theorem keyByte_lt (i : Nat) : keyByte i < 256 := by
  unfold keyByte
  show _ &&& (2 ^ 8 - 1) < 256
  rw [Nat.and_pow_two_sub_one_eq_mod]
  omega

theorem encodeByte_encode (d i : Nat) :
    encodeByte d i false = (d + 256 - keyByte i) % 256 := by
  have hk := keyByte_lt i
  simp only [encodeByte, Bool.false_eq_true, ↓reduceIte]
  omega

theorem encodeByte_decode (d i : Nat) :
    encodeByte d i true = (d + keyByte i) % 256 := by
  have hk := keyByte_lt i
  simp only [encodeByte, ↓reduceIte]
  omega

theorem encodeByte_lt (d i : Nat) (decode : Bool) : encodeByte d i decode < 256 := by
  unfold encodeByte
  exact Nat.mod_lt _ (by decide)

theorem encodeByte_decode_encode (d i : Nat) (hd : d < 256) :
    encodeByte (encodeByte d i false) i true = d := by
  have hk := keyByte_lt i
  rw [encodeByte_decode, encodeByte_encode]
  omega

theorem encodeByte_encode_decode (d i : Nat) (hd : d < 256) :
    encodeByte (encodeByte d i true) i false = d := by
  have hk := keyByte_lt i
  rw [encodeByte_encode, encodeByte_decode]
  omega

/-- After the first `n` iterations of the loop of `EncodeBlock100` the
positions below `n` hold the transformed bytes and the others are untouched. -/
theorem encodeLoop_getElem? (decode : Bool) (data : List Nat) (n : Nat) :
    ∀ i, ((List.range n).foldl
        (fun d i => d.set i (encodeByte (d.getD i 0) i decode)) data)[i]? =
      if i < n then data[i]?.map (fun d => encodeByte d i decode) else data[i]? := by
  induction n with
  | zero => simp
  | succ n ih =>
    intro i
    rw [List.range_succ, List.foldl_append]
    simp only [List.foldl_cons, List.foldl_nil]
    generalize (List.range n).foldl
        (fun d i => d.set i (encodeByte (d.getD i 0) i decode)) data = cur at ih ⊢
    have hn : cur[n]? = data[n]? := by
      rw [ih n]; simp
    rw [List.getElem?_set]
    by_cases hin : n = i
    · subst hin
      simp only [↓reduceIte, Nat.lt_succ_self]
      by_cases hlen : n < cur.length
      · have hc : cur[n]? = some cur[n] := List.getElem?_eq_getElem hlen
        rw [← hn, hc]
        simp [hlen, List.getD_eq_getElem?_getD, hc]
      · have hc : cur[n]? = none := by
          rw [List.getElem?_eq_none_iff]; omega
        rw [← hn, hc]
        simp [hlen]
    · rw [if_neg hin, ih i]
      by_cases h1 : i < n
      · have h2 : i < n + 1 := by omega
        simp [h1, h2]
      · have h2 : ¬ i < n + 1 := by omega
        simp [h1, h2]

theorem EncodeBlock100_getElem? (data : List Nat) (decode : Bool) (i : Nat) :
    (EncodeBlock100 data decode)[i]? =
      if i < ENCODE_BLKLEN then data[i]?.map (fun d => encodeByte d i decode)
      else data[i]? :=
  encodeLoop_getElem? decode data ENCODE_BLKLEN i

theorem EncodeBlock100_length (data : List Nat) (decode : Bool) :
    (EncodeBlock100 data decode).length = data.length := by
  unfold EncodeBlock100
  generalize ENCODE_BLKLEN = n
  induction n with
  | zero => simp
  | succ n ih =>
    rw [List.range_succ, List.foldl_append]
    simp only [List.foldl_cons, List.foldl_nil, List.length_set]
    exact ih

theorem EncodeBlock100_isBytes (data : List Nat) (decode : Bool)
    (hlen : data.length ≤ ENCODE_BLKLEN) : IsBytes (EncodeBlock100 data decode) := by
  intro b hb
  obtain ⟨i, hi, rfl⟩ := List.getElem_of_mem hb
  have h1 : (EncodeBlock100 data decode)[i]? = some (EncodeBlock100 data decode)[i] :=
    List.getElem?_eq_getElem hi
  rw [EncodeBlock100_length] at hi
  have h2 : i < ENCODE_BLKLEN := by omega
  rw [EncodeBlock100_getElem?, if_pos h2, List.getElem?_eq_getElem hi] at h1
  simp only [Option.map_some', Option.some.injEq] at h1
  rw [← h1]
  exact encodeByte_lt _ _ _

theorem EncodeBlock100_decode_encode (B : List Nat) (hb : IsBytes B) :
    EncodeBlock100 (EncodeBlock100 B false) true = B := by
  apply List.ext_getElem?
  intro i
  rw [EncodeBlock100_getElem?, EncodeBlock100_getElem?]
  by_cases h : i < ENCODE_BLKLEN
  · simp only [h, ↓reduceIte]
    cases hq : B[i]? with
    | none => simp
    | some d =>
      have hd : d < 256 := hb d (List.getElem?_mem hq)
      simp [encodeByte_decode_encode d i hd]
  · simp [h]

theorem EncodeBlock100_encode_decode (B : List Nat) (hb : IsBytes B) :
    EncodeBlock100 (EncodeBlock100 B true) false = B := by
  apply List.ext_getElem?
  intro i
  rw [EncodeBlock100_getElem?, EncodeBlock100_getElem?]
  by_cases h : i < ENCODE_BLKLEN
  · simp only [h, ↓reduceIte]
    cases hq : B[i]? with
    | none => simp
    | some d =>
      have hd : d < 256 := hb d (List.getElem?_mem hq)
      simp [encodeByte_encode_decode d i hd]
  · simp [h]

/-! ### Lemmas on `main` of nosimg-enc.c -/

theorem copyRemaining_eq_aux (n : Nat) :
    ∀ inp : List Nat, inp.length = n → ∀ out, copyRemaining inp out = out ++ inp := by
  induction n using Nat.strong_induction_on with
  | _ n ih =>
    intro inp h out
    rw [copyRemaining]
    by_cases hpos : (List.take COPY_BUF_LEN inp).length > 0
    · simp only [hpos, ↓reduceDIte, List.take_length]
      have hlt : (List.drop COPY_BUF_LEN inp).length < n := by
        simp only [List.length_take, COPY_BUF_LEN] at hpos
        simp only [List.length_drop, COPY_BUF_LEN]
        omega
      rw [ih _ hlt (List.drop COPY_BUF_LEN inp) rfl, List.append_assoc,
        List.take_append_drop]
    · simp only [hpos, ↓reduceDIte]
      have h0 : inp = [] := by
        simp only [List.length_take, COPY_BUF_LEN] at hpos
        apply List.eq_nil_of_length_eq_zero
        omega
      simp [h0]

theorem copyRemaining_eq (inp out : List Nat) : copyRemaining inp out = out ++ inp :=
  copyRemaining_eq_aux inp.length inp rfl out

/-- The bytes the codec writes for the two encoded blocks of an image. -/
theorem encodeBlocks_of_le (decode : Bool) (input : List Nat)
    (hlen : 2 * ENCODE_BLKLEN ≤ input.length) :
    encodeBlocks decode ENCODE_BLOCKS input [] =
      Sum.inr (input.drop (2 * ENCODE_BLKLEN),
        EncodeBlock100 (input.take ENCODE_BLKLEN) decode ++
          EncodeBlock100 ((input.drop ENCODE_BLKLEN).take ENCODE_BLKLEN) decode) := by
  have h1 : (List.take ENCODE_BLKLEN input).length = ENCODE_BLKLEN := by
    rw [List.length_take]; omega
  have h2 : (List.take ENCODE_BLKLEN (List.drop ENCODE_BLKLEN input)).length
      = ENCODE_BLKLEN := by
    rw [List.length_take, List.length_drop]; omega
  have e1 : ∀ l : List Nat, List.take (EncodeBlock100 l decode).length
      (EncodeBlock100 l decode) = EncodeBlock100 l decode := fun l => List.take_length _
  simp only [ENCODE_BLOCKS, encodeBlocks, h1, h2, Nat.lt_irrefl, ↓reduceIte,
    List.nil_append, List.drop_drop]
  have t1 : List.take ENCODE_BLKLEN (EncodeBlock100 (List.take ENCODE_BLKLEN input) decode)
      = EncodeBlock100 (List.take ENCODE_BLKLEN input) decode := by
    apply List.take_of_length_le
    rw [EncodeBlock100_length, h1]
  have t2 : List.take ENCODE_BLKLEN
      (EncodeBlock100 (List.take ENCODE_BLKLEN (List.drop ENCODE_BLKLEN input)) decode)
      = EncodeBlock100 (List.take ENCODE_BLKLEN (List.drop ENCODE_BLKLEN input)) decode := by
    apply List.take_of_length_le
    rw [EncodeBlock100_length, h2]
  rw [t1, t2]
  have : ENCODE_BLKLEN + ENCODE_BLKLEN = 2 * ENCODE_BLKLEN := by omega
  rw [this]

theorem nosimgMain_of_le (decode : Bool) (input : List Nat)
    (hlen : 2 * ENCODE_BLKLEN ≤ input.length) :
    nosimgMain input decode =
      { ret := EXIT_SUCCESS,
        out := EncodeBlock100 (input.take ENCODE_BLKLEN) decode ++
          EncodeBlock100 ((input.drop ENCODE_BLKLEN).take ENCODE_BLKLEN) decode ++
          input.drop (2 * ENCODE_BLKLEN) } := by
  unfold nosimgMain
  rw [encodeBlocks_of_le decode input hlen]
  simp only [copyRemaining_eq]

theorem nosimgMain_of_lt (decode : Bool) (input : List Nat)
    (hlen : input.length < 2 * ENCODE_BLKLEN) :
    nosimgMain input decode =
      { ret := EXIT_FAILURE,
        out := if input.length < ENCODE_BLKLEN then []
          else EncodeBlock100 (input.take ENCODE_BLKLEN) decode } := by
  unfold nosimgMain
  by_cases h : input.length < ENCODE_BLKLEN
  · have h1 : (List.take ENCODE_BLKLEN input).length < ENCODE_BLKLEN := by
      rw [List.length_take]; omega
    simp only [ENCODE_BLOCKS, encodeBlocks, h1, h, ↓reduceIte]
  · have h1 : (List.take ENCODE_BLKLEN input).length = ENCODE_BLKLEN := by
      rw [List.length_take]; omega
    have h2 : (List.take ENCODE_BLKLEN (List.drop ENCODE_BLKLEN input)).length
        < ENCODE_BLKLEN := by
      rw [List.length_take, List.length_drop]; omega
    have t1 : List.take ENCODE_BLKLEN (EncodeBlock100 (List.take ENCODE_BLKLEN input) decode)
        = EncodeBlock100 (List.take ENCODE_BLKLEN input) decode := by
      apply List.take_of_length_le
      rw [EncodeBlock100_length, h1]
    simp only [ENCODE_BLOCKS, encodeBlocks, h1, h2, h, Nat.lt_irrefl, ↓reduceIte,
      List.nil_append, t1]

theorem isBytes_replicate (n b : Nat) (hb : b < 256) : IsBytes (List.replicate n b) := by
  intro x hx
  rw [List.mem_replicate] at hx
  omega

theorem isBytes_take (n : Nat) (l : List Nat) (h : IsBytes l) : IsBytes (l.take n) :=
  fun b hb => h b (List.mem_of_mem_take hb)

theorem isBytes_drop (n : Nat) (l : List Nat) (h : IsBytes l) : IsBytes (l.drop n) :=
  fun b hb => h b (List.mem_of_mem_drop hb)

/-! ### Lemmas on byte order in cvimg.c -/

theorem bytes16_split (lo hi : Nat) (hlo : lo < 256) (hhi : hi < 256) :
    (lo * 256 + hi) % 256 = hi ∧ (lo * 256 + hi) / 256 % 256 = lo := by
  constructor <;> omega

theorem bytes32_split (b0 b1 b2 b3 : Nat) (h0 : b0 < 256) (h1 : b1 < 256) (h2 : b2 < 256)
    (h3 : b3 < 256) :
    (b0 * 2 ^ 24 + b1 * 2 ^ 16 + b2 * 2 ^ 8 + b3) % 2 ^ 32
        = b0 * 2 ^ 24 + b1 * 2 ^ 16 + b2 * 2 ^ 8 + b3 ∧
      (b0 * 2 ^ 24 + b1 * 2 ^ 16 + b2 * 2 ^ 8 + b3) % 256 = b3 ∧
      (b0 * 2 ^ 24 + b1 * 2 ^ 16 + b2 * 2 ^ 8 + b3) / 2 ^ 8 % 256 = b2 ∧
      (b0 * 2 ^ 24 + b1 * 2 ^ 16 + b2 * 2 ^ 8 + b3) / 2 ^ 16 % 256 = b1 ∧
      (b0 * 2 ^ 24 + b1 * 2 ^ 16 + b2 * 2 ^ 8 + b3) / 2 ^ 24 % 256 = b0 := by
  refine ⟨?_, ?_, ?_, ?_, ?_⟩ <;> omega

theorem bswap_16_bytes (v : Nat) :
    bswap_16 v % 256 = v / 256 % 256 ∧ bswap_16 v / 256 % 256 = v % 256 :=
  bytes16_split (v % 256) (v / 256 % 256) (Nat.mod_lt _ (by decide)) (Nat.mod_lt _ (by decide))

theorem HOST_TO_BE16_load16 (host : Host) (a b : Nat) (ha : a < 256) (hb : b < 256) :
    HOST_TO_BE16 host (load16 host a b) = a * 256 + b := by
  unfold HOST_TO_BE16 load16 bswap_16
  cases host.littleEndian
  · simp
  · simp only [↓reduceIte]
    have h1 : (a + b * 256) % 256 = a := by omega
    have h2 : (a + b * 256) / 256 % 256 = b := by omega
    rw [h1, h2]

theorem storeBytes16_HOST_TO_BE16 (host : Host) (v : Nat) :
    storeBytes16 host (HOST_TO_BE16 host v) = be16 v := by
  unfold HOST_TO_BE16 storeBytes16 be16
  cases host.littleEndian
  · simp
  · simp only [↓reduceIte]
    rw [(bswap_16_bytes v).1, (bswap_16_bytes v).2]

theorem HOST_TO_BE16_twice (host : Host) (v : Nat) (hv : v < 2 ^ 16) :
    HOST_TO_BE16 host (HOST_TO_BE16 host v) = v := by
  unfold HOST_TO_BE16
  cases host.littleEndian
  · simp
  · simp only [↓reduceIte]
    show (bswap_16 v % 256) * 256 + bswap_16 v / 256 % 256 = v
    rw [(bswap_16_bytes v).1, (bswap_16_bytes v).2]
    omega

theorem storeBytes32_HOST_TO_BE32 (host : Host) (v : Nat) (hv : v < 2 ^ 32) :
    storeBytes32 host (HOST_TO_BE32 host v % 2 ^ 32) = be32 v := by
  unfold HOST_TO_BE32 storeBytes32 be32
  cases host.littleEndian
  · simp only [Bool.false_eq_true, ↓reduceIte]
    rw [Nat.mod_eq_of_lt hv]
  · simp only [↓reduceIte]
    obtain ⟨e0, e1, e2, e3, e4⟩ := bytes32_split (v % 256) (v / 2 ^ 8 % 256)
      (v / 2 ^ 16 % 256) (v / 2 ^ 24 % 256) (Nat.mod_lt _ (by decide))
      (Nat.mod_lt _ (by decide)) (Nat.mod_lt _ (by decide)) (Nat.mod_lt _ (by decide))
    unfold bswap_32
    rw [e0, e1, e2, e3, e4]

theorem storeBytes32_length (host : Host) (v : Nat) : (storeBytes32 host v).length = 4 := by
  unfold storeBytes32
  cases host.littleEndian <;> rfl

theorem storeBytes16_length (host : Host) (v : Nat) : (storeBytes16 host v).length = 2 := by
  unfold storeBytes16
  cases host.littleEndian <;> rfl

/-! ### Lemmas on the working buffer of cvimg.c -/

theorem bufBytes_length (buf : Nat → Nat) (n : Nat) : (bufBytes buf n).length = n := by
  simp [bufBytes]

theorem bufBytes_succ (buf : Nat → Nat) (n : Nat) :
    bufBytes buf (n + 1) = bufBytes buf n ++ [buf n] := by
  simp [bufBytes, List.range_succ]

theorem bufBytes_congr (f g : Nat → Nat) (n : Nat) (h : ∀ i, i < n → f i = g i) :
    bufBytes f n = bufBytes g n := by
  unfold bufBytes
  apply List.map_congr_left
  intro i hi
  exact h i (List.mem_range.mp hi)

theorem bufBytes_copyInto (buf : Nat → Nat) (bytes : List Nat) :
    bufBytes (copyInto buf bytes) bytes.length = bytes := by
  apply List.ext_getElem (bufBytes_length _ _)
  intro i h1 h2
  simp only [bufBytes, List.getElem_map, List.getElem_range, copyInto, h2, ↓reduceIte]
  exact List.getD_eq_getElem _ _ h2

theorem bufBytes_copyInto_succ (buf : Nat → Nat) (bytes : List Nat) :
    bufBytes (copyInto buf bytes) (bytes.length + 1) = bytes ++ [buf bytes.length] := by
  rw [bufBytes_succ, bufBytes_copyInto]
  simp [copyInto]

/-! ### Lemmas on one iteration of the read loop of cvimg.c -/

theorem chunkStep_out (host : Host) (st : LoopState) (chunk : List Nat) :
    (chunkStep host st chunk).out =
      st.out ++ chunk ++ (if chunk.length % 2 ≠ 0 then [st.buf chunk.length] else []) := by
  unfold chunkStep
  by_cases h : chunk.length % 2 ≠ 0
  · rw [if_pos h, if_pos h]
    simp only
    have hb : bufBytes (storeByte (copyInto st.buf chunk) (chunk.length + 1) 0).1
        (chunk.length + 1) = bufBytes (copyInto st.buf chunk) (chunk.length + 1) := by
      apply bufBytes_congr
      intro i hi
      unfold storeByte
      split
      · have : i ≠ chunk.length + 1 := by omega
        simp [this]
      · rfl
    rw [hb, bufBytes_copyInto_succ, List.append_assoc]
  · rw [if_neg h, if_neg h]
    simp only [bufBytes_copyInto, List.append_nil]

theorem chunkStep_sum (host : Host) (st : LoopState) (chunk : List Nat) :
    (chunkStep host st chunk).sum = (st.sum + calcSum host chunk) % ULONG_MOD := by
  unfold chunkStep
  by_cases h : chunk.length % 2 ≠ 0
  · rw [if_pos h]
    simp only [bufBytes_copyInto]
  · rw [if_neg h]
    simp only [bufBytes_copyInto]

/-! ### Lemmas on `calcSum` and on word sums -/

theorem beWordSum_append_even : ∀ (l m : List Nat), l.length % 2 = 0 →
    beWordSum (l ++ m) = beWordSum l + beWordSum m
  | [], m, _ => by simp [beWordSum]
  | [a], m, h => by simp at h
  | a :: b :: rest, m, h => by
    have hr : rest.length % 2 = 0 := by
      simp only [List.length_cons] at h; omega
    have ih := beWordSum_append_even rest m hr
    show a * 256 + b + beWordSum (rest ++ m) = (a * 256 + b + beWordSum rest) + beWordSum m
    rw [ih]
    omega

theorem calcSumLoop_even (host : Host) : ∀ (l : List Nat) (s : Nat), IsBytes l →
    l.length % 2 = 0 → s < ULONG_MOD →
    calcSumLoop host l s = (s + beWordSum l) % ULONG_MOD
  | [], s, _, _, hs => by
    simp only [calcSumLoop, beWordSum, Nat.add_zero]
    exact (Nat.mod_eq_of_lt hs).symm
  | [a], s, _, h, _ => by simp at h
  | a :: b :: rest, s, hb, h, _ => by
    have hr : rest.length % 2 = 0 := by
      simp only [List.length_cons] at h; omega
    have ha : a < 256 := hb a (by simp)
    have hb2 : b < 256 := hb b (by simp)
    have hrest : IsBytes rest := fun x hx => hb x (by simp [hx])
    have hne : ¬ rest.length = 1 := by omega
    have ih := calcSumLoop_even host rest
      ((s + HOST_TO_BE16 host (load16 host a b)) % ULONG_MOD) hrest hr
      (Nat.mod_lt _ (by decide))
    show calcSumLoop host rest
        (if rest.length = 1 then
          ((s + HOST_TO_BE16 host (load16 host a b)) % ULONG_MOD
            + charValue host (rest.headD 0)) % ULONG_MOD
        else (s + HOST_TO_BE16 host (load16 host a b)) % ULONG_MOD)
      = (s + (a * 256 + b + beWordSum rest)) % ULONG_MOD
    rw [if_neg hne, ih, HOST_TO_BE16_load16 host a b ha hb2]
    simp only [ULONG_MOD]
    omega

theorem calcSum_even (host : Host) (l : List Nat) (hb : IsBytes l) (h : l.length % 2 = 0) :
    calcSum host l = beWordSum l % ULONG_MOD := by
  unfold calcSum
  rw [calcSumLoop_even host l 0 hb h (by decide), Nat.zero_add]

/-- A chunk of a single byte leaves the sum unchanged: the loop of `calcSum`
is not entered. -/
theorem calcSum_singleton (host : Host) (a : Nat) : calcSum host [a] = 0 := by
  simp [calcSum, calcSumLoop]

/-! ### Lemmas on the read loop of cvimg.c -/

theorem freadChunks_nil : freadChunks [] = [] := by
  rw [freadChunks]; simp

theorem freadChunks_cons (inp : List Nat) (h : inp ≠ []) :
    freadChunks inp = inp.take BUF_LEN :: freadChunks (inp.drop BUF_LEN) := by
  rw [freadChunks]; simp [h]

theorem freadChunks_short (inp : List Nat) (h : inp ≠ []) (hlen : inp.length ≤ BUF_LEN) :
    freadChunks inp = [inp] := by
  rw [freadChunks_cons inp h, List.take_of_length_le hlen, List.drop_of_length_le hlen,
    freadChunks_nil]

theorem dataLoop_out_aux (host : Host) (n : Nat) : ∀ (inp : List Nat) (st : LoopState),
    inp.length = n →
    ∃ pad, ((freadChunks inp).foldl (chunkStep host) st).out = st.out ++ inp ++ pad ∧
      pad.length = inp.length % 2 := by
  induction n using Nat.strong_induction_on with
  | _ n ih =>
    intro inp st hn
    by_cases h0 : inp = []
    · subst h0
      exact ⟨[], by simp [freadChunks_nil], by simp⟩
    · have hpos : 0 < inp.length := List.length_pos.mpr h0
      by_cases hle : inp.length ≤ BUF_LEN
      · rw [freadChunks_short inp h0 hle]
        simp only [List.foldl_cons, List.foldl_nil, chunkStep_out]
        refine ⟨_, rfl, ?_⟩
        split <;> simp <;> omega
      · have hB : BUF_LEN = 0x10000 := rfl
        have htake : (List.take BUF_LEN inp).length = BUF_LEN := by
          rw [List.length_take]; omega
        have hdrop : (List.drop BUF_LEN inp).length < n := by
          rw [List.length_drop]; omega
        rw [freadChunks_cons inp h0]
        simp only [List.foldl_cons]
        obtain ⟨pad, hout, hpad⟩ := ih _ hdrop (List.drop BUF_LEN inp)
          (chunkStep host st (List.take BUF_LEN inp)) rfl
        refine ⟨pad, ?_, ?_⟩
        · rw [hout, chunkStep_out, htake]
          have he : ¬ BUF_LEN % 2 ≠ 0 := by decide
          rw [if_neg he, List.append_nil, List.append_assoc st.out, List.take_append_drop]
        · rw [hpad, List.length_drop]
          omega

theorem dataLoop_out (host : Host) (inp : List Nat) (st : LoopState) :
    ∃ pad, ((freadChunks inp).foldl (chunkStep host) st).out = st.out ++ inp ++ pad ∧
      pad.length = inp.length % 2 :=
  dataLoop_out_aux host inp.length inp st rfl

theorem dataLoop_sum_lt (host : Host) (chunks : List (List Nat)) : ∀ (st : LoopState),
    st.sum < ULONG_MOD → (chunks.foldl (chunkStep host) st).sum < ULONG_MOD := by
  induction chunks with
  | nil => intro st h; exact h
  | cons c cs ih =>
    intro st _
    simp only [List.foldl_cons]
    apply ih
    rw [chunkStep_sum]
    exact Nat.mod_lt _ (by decide)

theorem dataLoop_sum_even_aux (host : Host) (n : Nat) : ∀ (inp : List Nat) (st : LoopState),
    inp.length = n → IsBytes inp → inp.length % 2 = 0 → st.sum < ULONG_MOD →
    ((freadChunks inp).foldl (chunkStep host) st).sum
      = (st.sum + beWordSum inp) % ULONG_MOD := by
  induction n using Nat.strong_induction_on with
  | _ n ih =>
    intro inp st hn hb hev hs
    by_cases h0 : inp = []
    · subst h0
      simp only [freadChunks_nil, List.foldl_nil, beWordSum, Nat.add_zero]
      exact (Nat.mod_eq_of_lt hs).symm
    · have hpos : 0 < inp.length := List.length_pos.mpr h0
      have hB : BUF_LEN = 0x10000 := rfl
      have hdrop : (List.drop BUF_LEN inp).length < n := by
        rw [List.length_drop]; omega
      have htev : (List.take BUF_LEN inp).length % 2 = 0 := by
        rw [List.length_take]; omega
      have hdev : (List.drop BUF_LEN inp).length % 2 = 0 := by
        rw [List.length_drop]; omega
      rw [freadChunks_cons inp h0]
      simp only [List.foldl_cons]
      rw [ih _ hdrop (List.drop BUF_LEN inp) (chunkStep host st (List.take BUF_LEN inp)) rfl
        (isBytes_drop _ _ hb) hdev (by rw [chunkStep_sum]; exact Nat.mod_lt _ (by decide))]
      rw [chunkStep_sum, calcSum_even host _ (isBytes_take _ _ hb) htev]
      have hsplit : beWordSum inp
          = beWordSum (List.take BUF_LEN inp) + beWordSum (List.drop BUF_LEN inp) := by
        rw [← beWordSum_append_even _ _ htev, List.take_append_drop]
      rw [hsplit]
      simp only [ULONG_MOD]
      omega

theorem dataLoop_sum_even (host : Host) (inp : List Nat) (st : LoopState)
    (hb : IsBytes inp) (hev : inp.length % 2 = 0) (hs : st.sum < ULONG_MOD) :
    ((freadChunks inp).foldl (chunkStep host) st).sum
      = (st.sum + beWordSum inp) % ULONG_MOD :=
  dataLoop_sum_even_aux host inp.length inp st rfl hb hev hs

/-! ## The block codec: claims -/

/-- C1. Block round trip: for every 256-byte block `B`, `EncodeBlock100` in
encode mode followed by decode mode returns `B`, and decode mode followed by
encode mode returns `B` as well. -/
theorem EncodeBlock100_round_trip (B : List Nat) (hlen : B.length = ENCODE_BLKLEN)
    (hb : IsBytes B) :
    EncodeBlock100 (EncodeBlock100 B false) true = B ∧
      EncodeBlock100 (EncodeBlock100 B true) false = B := by
  have _ := hlen
  exact ⟨EncodeBlock100_decode_encode B hb, EncodeBlock100_encode_decode B hb⟩

theorem EncodeBlock100_round_trip_witness :
    (List.replicate 256 0x5a).length = ENCODE_BLKLEN ∧ IsBytes (List.replicate 256 0x5a) ∧
      EncodeBlock100 (EncodeBlock100 (List.replicate 256 0x5a) false) true
        = List.replicate 256 0x5a ∧
      EncodeBlock100 (EncodeBlock100 (List.replicate 256 0x5a) true) false
        = List.replicate 256 0x5a :=
  ⟨List.length_replicate 256 0x5a, isBytes_replicate 256 0x5a (by decide),
    EncodeBlock100_round_trip (List.replicate 256 0x5a) (List.length_replicate 256 0x5a)
      (isBytes_replicate 256 0x5a (by decide))⟩

/-- C2, as stated, fails: on the all-zero block, position 0 (keystream byte
`0xee`), encode mode yields `0x12 = (0 - 0xee) mod 256` and not
`(0 + 0xee) mod 256`, and decode mode yields `0xee` and not `(0 - 0xee) mod 256`. -/
theorem EncodeBlock100_direction_counterexample :
    keyByte 0 = 0xee ∧
    (EncodeBlock100 (List.replicate 256 0) false)[0]? = some 0x12 ∧
    (EncodeBlock100 (List.replicate 256 0) false)[0]?
      ≠ some (((List.replicate 256 0).getD 0 0 + keyByte 0) % 256) ∧
    (EncodeBlock100 (List.replicate 256 0) true)[0]? = some 0xee ∧
    (EncodeBlock100 (List.replicate 256 0) true)[0]?
      ≠ some (((List.replicate 256 0).getD 0 0 + 256 - keyByte 0) % 256) := by
  have hk : keyByte 0 = 0xee := by decide
  have h0 : (List.replicate 256 0)[0]? = some 0 :=
    List.getElem?_replicate_of_lt (by decide)
  have hd : (List.replicate 256 0).getD 0 0 = 0 := by
    rw [List.getD_eq_getElem?_getD, h0]; rfl
  have e1 : encodeByte 0 0 false = 0x12 := by rw [encodeByte_encode, hk]
  have e2 : encodeByte 0 0 true = 0xee := by rw [encodeByte_decode, hk]
  have hlt : 0 < ENCODE_BLKLEN := by decide
  refine ⟨hk, ?_, ?_, ?_, ?_⟩
  · rw [EncodeBlock100_getElem?, if_pos hlt, h0, Option.map_some', e1]
  · rw [EncodeBlock100_getElem?, if_pos hlt, h0, Option.map_some', e1, hk, hd]
    decide
  · rw [EncodeBlock100_getElem?, if_pos hlt, h0, Option.map_some', e2]
  · rw [EncodeBlock100_getElem?, if_pos hlt, h0, Option.map_some', e2, hk, hd]
    decide

/-- C2, amended. Direction of the block transform: for every 256-byte block
and every position `i` in `[0,256)`, `EncodeBlock100` in encode mode
(`decode = false`) produces `(block[i] - k(i)) mod 256`, and in decode mode
(`decode = true`) produces `(block[i] + k(i)) mod 256`, where `k(i)` is the
keystream byte of position `i`. -/
theorem EncodeBlock100_direction (B : List Nat) (i : Nat)
    (hlen : B.length = ENCODE_BLKLEN) (hi : i < ENCODE_BLKLEN) :
    ((EncodeBlock100 B false).getD i 0 : Int) = ((B.getD i 0 : Int) - keyByte i) % 256 ∧
      (EncodeBlock100 B true).getD i 0 = (B.getD i 0 + keyByte i) % 256 := by
  have hiB : i < B.length := by omega
  have hq : B[i]? = some B[i] := List.getElem?_eq_getElem hiB
  have hk := keyByte_lt i
  constructor
  · rw [List.getD_eq_getElem?_getD, EncodeBlock100_getElem?, if_pos hi, hq,
      List.getD_eq_getElem?_getD, hq]
    simp only [Option.map_some', Option.getD_some]
    rw [encodeByte_encode]
    omega
  · rw [List.getD_eq_getElem?_getD, EncodeBlock100_getElem?, if_pos hi, hq,
      List.getD_eq_getElem?_getD, hq]
    simp only [Option.map_some', Option.getD_some]
    rw [encodeByte_decode]

theorem EncodeBlock100_direction_witness :
    (List.replicate 256 0x5a).length = ENCODE_BLKLEN ∧ 1 < ENCODE_BLKLEN ∧
      (((EncodeBlock100 (List.replicate 256 0x5a) false).getD 1 0 : Int)
          = (((List.replicate 256 0x5a).getD 1 0 : Int) - keyByte 1) % 256 ∧
        (EncodeBlock100 (List.replicate 256 0x5a) true).getD 1 0
          = ((List.replicate 256 0x5a).getD 1 0 + keyByte 1) % 256) :=
  ⟨List.length_replicate 256 0x5a, by decide,
    EncodeBlock100_direction (List.replicate 256 0x5a) 1 (List.length_replicate 256 0x5a)
      (by decide)⟩

/-- C8. Whole-image round trip: for every image of length `512 + N`, `N ≥ 0`,
the codec in encode mode succeeds, and the codec in decode mode on its output
succeeds and reproduces the image byte for byte, tail included. -/
theorem nosimgMain_round_trip (image : List Nat) (hlen : 512 ≤ image.length)
    (hb : IsBytes image) :
    (nosimgMain image false).ret = EXIT_SUCCESS ∧
      nosimgMain (nosimgMain image false).out true
        = { ret := EXIT_SUCCESS, out := image } := by
  have hlen2 : 2 * ENCODE_BLKLEN ≤ image.length := hlen
  have l1 : (List.take ENCODE_BLKLEN image).length = ENCODE_BLKLEN := by
    rw [List.length_take]; omega
  have l2 : (List.take ENCODE_BLKLEN (List.drop ENCODE_BLKLEN image)).length
      = ENCODE_BLKLEN := by
    rw [List.length_take, List.length_drop]; omega
  rw [nosimgMain_of_le false image hlen2]
  refine ⟨rfl, ?_⟩
  simp only
  generalize hE1 : EncodeBlock100 (List.take ENCODE_BLKLEN image) false = E1
  generalize hE2 : EncodeBlock100
    (List.take ENCODE_BLKLEN (List.drop ENCODE_BLKLEN image)) false = E2
  have m1 : E1.length = ENCODE_BLKLEN := by rw [← hE1, EncodeBlock100_length, l1]
  have m2 : E2.length = ENCODE_BLKLEN := by rw [← hE2, EncodeBlock100_length, l2]
  have hout : 2 * ENCODE_BLKLEN ≤ (E1 ++ E2 ++ List.drop (2 * ENCODE_BLKLEN) image).length := by
    simp only [List.length_append, m1, m2]; omega
  rw [nosimgMain_of_le true _ hout]
  have a1 : List.take ENCODE_BLKLEN (E1 ++ E2 ++ List.drop (2 * ENCODE_BLKLEN) image) = E1 := by
    rw [List.append_assoc]; exact List.take_left' m1
  have a2 : List.drop ENCODE_BLKLEN (E1 ++ E2 ++ List.drop (2 * ENCODE_BLKLEN) image)
      = E2 ++ List.drop (2 * ENCODE_BLKLEN) image := by
    rw [List.append_assoc]; exact List.drop_left' m1
  have a3 : List.drop (2 * ENCODE_BLKLEN) (E1 ++ E2 ++ List.drop (2 * ENCODE_BLKLEN) image)
      = List.drop (2 * ENCODE_BLKLEN) image := by
    apply List.drop_left'
    simp only [List.length_append, m1, m2]; omega
  rw [a1, a2, a3, List.take_left' m2, ← hE1, ← hE2,
    EncodeBlock100_decode_encode _ (isBytes_take _ _ hb),
    EncodeBlock100_decode_encode _ (isBytes_take _ _ (isBytes_drop _ _ hb))]
  have hsplit : List.take ENCODE_BLKLEN image
      ++ List.take ENCODE_BLKLEN (List.drop ENCODE_BLKLEN image)
      ++ List.drop (2 * ENCODE_BLKLEN) image = image := by
    have h2 : List.drop (2 * ENCODE_BLKLEN) image
        = List.drop ENCODE_BLKLEN (List.drop ENCODE_BLKLEN image) := by
      rw [List.drop_drop, Nat.two_mul]
    rw [h2, List.append_assoc, List.take_append_drop, List.take_append_drop]
  rw [hsplit]

theorem nosimgMain_round_trip_witness :
    512 ≤ (List.replicate 600 0x5a).length ∧ IsBytes (List.replicate 600 0x5a) ∧
      (nosimgMain (List.replicate 600 0x5a) false).ret = EXIT_SUCCESS ∧
      nosimgMain (nosimgMain (List.replicate 600 0x5a) false).out true
        = { ret := EXIT_SUCCESS, out := List.replicate 600 0x5a } :=
  ⟨by rw [List.length_replicate]; decide, isBytes_replicate 600 0x5a (by decide),
    nosimgMain_round_trip (List.replicate 600 0x5a)
      (by rw [List.length_replicate]; decide) (isBytes_replicate 600 0x5a (by decide))⟩

/-- C9. Codec frame: for every input image of length at least 512 and either
mode, the output has the length of the input, and every output byte at an
offset `j ≥ 512` is the input byte at offset `j`. -/
theorem nosimgMain_frame (input : List Nat) (decode : Bool) (hlen : 512 ≤ input.length) :
    (nosimgMain input decode).out.length = input.length ∧
      ∀ j, 512 ≤ j → (nosimgMain input decode).out[j]? = input[j]? := by
  have hlen2 : 2 * ENCODE_BLKLEN ≤ input.length := hlen
  have l1 : (List.take ENCODE_BLKLEN input).length = ENCODE_BLKLEN := by
    rw [List.length_take]; omega
  have l2 : (List.take ENCODE_BLKLEN (List.drop ENCODE_BLKLEN input)).length
      = ENCODE_BLKLEN := by
    rw [List.length_take, List.length_drop]; omega
  rw [nosimgMain_of_le decode input hlen2]
  simp only
  have hB : ENCODE_BLKLEN = 256 := rfl
  constructor
  · simp only [List.length_append, EncodeBlock100_length, l1, l2, List.length_drop]
    omega
  · intro j hj
    have hpre : (EncodeBlock100 (List.take ENCODE_BLKLEN input) decode ++
        EncodeBlock100 (List.take ENCODE_BLKLEN (List.drop ENCODE_BLKLEN input)) decode).length
        = 2 * ENCODE_BLKLEN := by
      simp only [List.length_append, EncodeBlock100_length, l1, l2]; omega
    have hj2 : ¬ j < 2 * ENCODE_BLKLEN := by rw [hB]; omega
    have hj3 : 2 * ENCODE_BLKLEN + (j - 2 * ENCODE_BLKLEN) = j := by rw [hB]; omega
    rw [List.getElem?_append, hpre, if_neg hj2, List.getElem?_drop, hj3]

theorem nosimgMain_frame_witness :
    512 ≤ (List.replicate 600 0x5a).length ∧
      (nosimgMain (List.replicate 600 0x5a) true).out.length
        = (List.replicate 600 0x5a).length ∧
      ∀ j, 512 ≤ j → (nosimgMain (List.replicate 600 0x5a) true).out[j]?
        = (List.replicate 600 0x5a)[j]? :=
  ⟨by rw [List.length_replicate]; decide,
    nosimgMain_frame (List.replicate 600 0x5a) true
      (by rw [List.length_replicate]; decide)⟩

/-- C10. A short image is rejected: for every input image and either mode,
absent I/O errors, the codec returns the failure status if and only if the
image has fewer than 512 bytes; otherwise it returns success. -/
theorem nosimgMain_fails_iff_short (input : List Nat) (decode : Bool) :
    ((nosimgMain input decode).ret = EXIT_FAILURE ↔ input.length < 512) ∧
      ((nosimgMain input decode).ret = EXIT_SUCCESS ↔ 512 ≤ input.length) := by
  by_cases h : input.length < 512
  · have h2 : input.length < 2 * ENCODE_BLKLEN := h
    rw [nosimgMain_of_lt decode input h2]
    refine ⟨⟨fun _ => h, fun _ => rfl⟩, ⟨fun hc => ?_, fun hc => ?_⟩⟩
    · have hc2 : EXIT_FAILURE = EXIT_SUCCESS := hc
      exact absurd hc2 (by decide)
    · omega
  · have h2 : 2 * ENCODE_BLKLEN ≤ input.length := Nat.le_of_not_lt h
    rw [nosimgMain_of_le decode input h2]
    refine ⟨⟨fun hc => ?_, fun hc => ?_⟩, ⟨fun _ => Nat.le_of_not_lt h, fun _ => rfl⟩⟩
    · have hc2 : EXIT_SUCCESS = EXIT_FAILURE := hc
      exact absurd hc2 (by decide)
    · omega

/-! ### Lemmas on the write phase of cvimg.c -/

/-- The value `(unsigned short)((~sum & 0xFFFF) + 1)` is the 16-bit negation of
`sum`. -/
theorem checksum_eq_negate16 (sum : Nat) (hs : sum < ULONG_MOD) :
    ((((ULONG_MOD - 1 - sum) &&& 0xFFFF) + 1) % ULONG_MOD) % 2 ^ 16 = negate16 sum := by
  have h : (ULONG_MOD - 1 - sum) &&& 0xFFFF = (ULONG_MOD - 1 - sum) % 2 ^ 16 :=
    Nat.and_pow_two_sub_one_eq_mod _ 16
  rw [h]
  simp only [ULONG_MOD, negate16] at *
  omega

theorem writeChunks_checksum (host : Host) (header : CvimgHeader) (stack : Nat → Nat)
    (chunks : List (List Nat)) :
    (writeChunks host header stack chunks).checksum =
      negate16 (chunks.foldl (chunkStep host)
        { buf := copyInto stack ((headerImage host header).take HEADER_LEN), sum := 0,
          out := bufBytes (copyInto stack ((headerImage host header).take HEADER_LEN))
            HEADER_LEN,
          overrun := false }).sum := by
  unfold writeChunks
  simp only
  rw [checksum_eq_negate16]
  exact dataLoop_sum_lt host chunks _ (by show 0 < ULONG_MOD; decide)

theorem bufBytes_copyInto_be16 (host : Host) (buf : Nat → Nat) (v : Nat) :
    bufBytes (copyInto buf (storeBytes16 host (HOST_TO_BE16 host v))) 2 = be16 v := by
  rw [storeBytes16_HOST_TO_BE16]
  exact bufBytes_copyInto buf (be16 v)

theorem writeChunks_out (host : Host) (header : CvimgHeader) (stack : Nat → Nat)
    (chunks : List (List Nat)) :
    (writeChunks host header stack chunks).out =
      (chunks.foldl (chunkStep host)
        { buf := copyInto stack ((headerImage host header).take HEADER_LEN), sum := 0,
          out := bufBytes (copyInto stack ((headerImage host header).take HEADER_LEN))
            HEADER_LEN,
          overrun := false }).out
        ++ be16 (writeChunks host header stack chunks).checksum := by
  unfold writeChunks
  simp only
  rw [bufBytes_copyInto_be16]

theorem negate16_lt (s : Nat) : negate16 s < 2 ^ 16 := by
  unfold negate16
  exact Nat.mod_lt _ (by decide)

/-- The 16 bytes written by `fwrite(buf, 1, HEADER_LEN, out)`. -/
theorem headerBytes_written (host : Host) (signature : List Nat) (startAddr burnAddr len : Nat)
    (stack : Nat → Nat) (hsig : signature.length = SIGNATURE_LEN)
    (hs : startAddr < 2 ^ 32) (hbn : burnAddr < 2 ^ 32) (hl : len < 2 ^ 32) :
    bufBytes (copyInto stack ((headerImage host
        { signature := signature
          startAddr := HOST_TO_BE32 host startAddr % 2 ^ 32
          burnAddr := HOST_TO_BE32 host burnAddr % 2 ^ 32
          len := HOST_TO_BE32 host len % 2 ^ 32 }).take HEADER_LEN)) HEADER_LEN
      = signature ++ be32 startAddr ++ be32 burnAddr ++ be32 len := by
  unfold headerImage
  simp only
  rw [storeBytes32_HOST_TO_BE32 host _ hs, storeBytes32_HOST_TO_BE32 host _ hbn,
    storeBytes32_HOST_TO_BE32 host _ hl]
  have hlen : (signature ++ be32 startAddr ++ be32 burnAddr ++ be32 len).length
      = HEADER_LEN := by
    simp only [List.length_append, hsig, be32, List.length_cons, List.length_nil,
      SIGNATURE_LEN, HEADER_LEN]
  rw [List.take_of_length_le (Nat.le_of_eq hlen)]
  conv_lhs => rw [← hlen]
  exact bufBytes_copyInto _ _

/-- Shape of the output of the write phase: 16 header bytes, the payload, at
most one padding byte, the checksum most significant byte first. -/
theorem cvimgWrite_out (host : Host) (signature : List Nat) (startAddr burnAddr : Nat)
    (stack : Nat → Nat) (payload : List Nat) :
    ∃ hdr pad,
      (cvimgWrite host signature startAddr burnAddr stack payload).out
        = hdr ++ payload ++ pad
          ++ be16 (cvimgWrite host signature startAddr burnAddr stack payload).checksum ∧
      hdr.length = HEADER_LEN ∧ pad.length = payload.length % 2 ∧
      hdr = bufBytes (copyInto stack ((headerImage host
        { signature := signature
          startAddr := HOST_TO_BE32 host startAddr % 2 ^ 32
          burnAddr := HOST_TO_BE32 host burnAddr % 2 ^ 32
          len := HOST_TO_BE32 host ((payload.length + 2) % ULONG_MOD) % 2 ^ 32
          }).take HEADER_LEN)) HEADER_LEN := by
  unfold cvimgWrite
  simp only
  obtain ⟨pad, hout, hpad⟩ := dataLoop_out host payload
    { buf := copyInto stack ((headerImage host
        { signature := signature
          startAddr := HOST_TO_BE32 host startAddr % 2 ^ 32
          burnAddr := HOST_TO_BE32 host burnAddr % 2 ^ 32
          len := HOST_TO_BE32 host ((payload.length + 2) % ULONG_MOD) % 2 ^ 32
          }).take HEADER_LEN),
      sum := 0,
      out := bufBytes (copyInto stack ((headerImage host
        { signature := signature
          startAddr := HOST_TO_BE32 host startAddr % 2 ^ 32
          burnAddr := HOST_TO_BE32 host burnAddr % 2 ^ 32
          len := HOST_TO_BE32 host ((payload.length + 2) % ULONG_MOD) % 2 ^ 32
          }).take HEADER_LEN)) HEADER_LEN,
      overrun := false }
  refine ⟨_, pad, ?_, bufBytes_length _ _, hpad, rfl⟩
  rw [writeChunks_out, hout]

theorem cvimgWrite_checksum_even (host : Host) (signature : List Nat)
    (startAddr burnAddr : Nat) (stack : Nat → Nat) (payload : List Nat)
    (hb : IsBytes payload) (hev : payload.length % 2 = 0) :
    (cvimgWrite host signature startAddr burnAddr stack payload).checksum
      = negate16 (beWordSum payload) := by
  unfold cvimgWrite
  simp only
  rw [writeChunks_checksum, dataLoop_sum_even host payload _ hb hev
    (by show 0 < ULONG_MOD; decide)]
  simp only [negate16, ULONG_MOD]
  omega

/-- The write phase on a payload that `fread` returns as one chunk. -/
theorem cvimgWrite_single (host : Host) (signature : List Nat) (startAddr burnAddr : Nat)
    (stack : Nat → Nat) (payload : List Nat) (h0 : payload ≠ [])
    (hle : payload.length ≤ BUF_LEN) :
    (cvimgWrite host signature startAddr burnAddr stack payload).checksum
        = negate16 (calcSum host payload) ∧
      (cvimgWrite host signature startAddr burnAddr stack payload).out
        = bufBytes (copyInto stack ((headerImage host
            { signature := signature
              startAddr := HOST_TO_BE32 host startAddr % 2 ^ 32
              burnAddr := HOST_TO_BE32 host burnAddr % 2 ^ 32
              len := HOST_TO_BE32 host ((payload.length + 2) % ULONG_MOD) % 2 ^ 32
              }).take HEADER_LEN)) HEADER_LEN
          ++ payload
          ++ (if payload.length % 2 ≠ 0 then
              [copyInto stack ((headerImage host
                { signature := signature
                  startAddr := HOST_TO_BE32 host startAddr % 2 ^ 32
                  burnAddr := HOST_TO_BE32 host burnAddr % 2 ^ 32
                  len := HOST_TO_BE32 host ((payload.length + 2) % ULONG_MOD) % 2 ^ 32
                  }).take HEADER_LEN) payload.length]
            else [])
          ++ be16 (negate16 (calcSum host payload)) := by
  have hc : (cvimgWrite host signature startAddr burnAddr stack payload).checksum
      = negate16 (calcSum host payload) := by
    unfold cvimgWrite
    simp only
    rw [writeChunks_checksum, freadChunks_short payload h0 hle]
    simp only [List.foldl_cons, List.foldl_nil, chunkStep_sum, Nat.zero_add]
    simp only [negate16, ULONG_MOD]
    omega
  refine ⟨hc, ?_⟩
  rw [← hc]
  unfold cvimgWrite
  simp only
  rw [writeChunks_out, freadChunks_short payload h0 hle]
  simp only [List.foldl_cons, List.foldl_nil, chunkStep_out]

theorem drop_header (buf : Nat → Nat) (l : List Nat) :
    (bufBytes buf HEADER_LEN ++ l).drop 16 = l :=
  List.drop_left' (bufBytes_length buf HEADER_LEN)

/-! ## The header+checksum framer: claims -/

/-- C3, evaluated on inputs where the code departs from it. For the payload
`[0x01]` the claim gives `S = 1` and the checksum `0xFFFF`, while the framer
computes `0x0000` on every host: `calcSum` skips a chunk of one byte. For the
payload `[0x01, 0x02, 0x83]` the claim gives `S = 0x0185` and the checksum
`0xFE7B`, while the framer computes `0xFF7B` where `char` is signed: the final
byte is sign-extended and the sum is `0x0085`. -/
theorem cvimgWrite_checksum_odd_byte (host : Host) (startAddr burnAddr : Nat)
    (stack : Nat → Nat) :
    (cvimgWrite host DEF_SIGNATURE startAddr burnAddr stack [0x01]).checksum = 0x0000 ∧
      negate16 (beWordSum [0x01]) = 0xFFFF ∧
      (cvimgWrite { littleEndian := host.littleEndian, charSigned := true } DEF_SIGNATURE
        startAddr burnAddr stack [0x01, 0x02, 0x83]).checksum = 0xFF7B ∧
      negate16 (beWordSum [0x01, 0x02, 0x83]) = 0xFE7B := by
  refine ⟨?_, by decide, ?_, by decide⟩
  · rw [(cvimgWrite_single host DEF_SIGNATURE startAddr burnAddr stack [0x01]
      (by simp) (by decide)).1, calcSum_singleton]
    decide
  · rw [(cvimgWrite_single _ DEF_SIGNATURE startAddr burnAddr stack [0x01, 0x02, 0x83]
      (by simp) (by decide)).1]
    have hw := HOST_TO_BE16_load16 { littleEndian := host.littleEndian, charSigned := true }
      1 2 (by decide) (by decide)
    have hs : calcSum { littleEndian := host.littleEndian, charSigned := true }
        [0x01, 0x02, 0x83] = 0x85 := by
      simp only [calcSum, calcSumLoop, hw, charValue, ULONG_MOD]
      decide
    rw [hs]
    decide

/-- C4, as stated, fails on a payload of odd length: for the payload
`[0x01, 0x02, 0x03]` (little-endian host, signed `char`, default signature) the
bytes written after the header are `01 02 03 63 FE FB`, whose sum as
big-endian 16-bit words is `0x0360` modulo `2^16`, not 0. -/
theorem cvimgWrite_resum_counterexample :
    (cvimgWrite { littleEndian := true, charSigned := true } DEF_SIGNATURE 0x80000000
        0x10000 (fun _ => 0) [0x01, 0x02, 0x03]).out.drop 16
      = [0x01, 0x02, 0x03, 0x63, 0xFE, 0xFB] ∧
    beWordSum ((cvimgWrite { littleEndian := true, charSigned := true } DEF_SIGNATURE
        0x80000000 0x10000 (fun _ => 0) [0x01, 0x02, 0x03]).out.drop 16) % 2 ^ 16 = 0x0360 ∧
    beWordSum ((cvimgWrite { littleEndian := true, charSigned := true } DEF_SIGNATURE
        0x80000000 0x10000 (fun _ => 0) [0x01, 0x02, 0x03]).out.drop 16) % 2 ^ 16 ≠ 0 := by
  have hout : (cvimgWrite { littleEndian := true, charSigned := true } DEF_SIGNATURE
      0x80000000 0x10000 (fun _ => 0) [0x01, 0x02, 0x03]).out.drop 16
      = [0x01, 0x02, 0x03, 0x63, 0xFE, 0xFB] := by
    rw [(cvimgWrite_single _ DEF_SIGNATURE 0x80000000 0x10000 (fun _ => 0)
      [0x01, 0x02, 0x03] (by simp) (by decide)).2]
    simp only [List.append_assoc]
    rw [drop_header]
    decide
  rw [hout]
  exact ⟨rfl, by decide, by decide⟩

/-- C4, amended. Self-verifying checksum: for every input payload of even
length, summing the byte stream the framer writes after the 16-byte header
(the payload followed by the 2-byte checksum) as successive big-endian 16-bit
words yields 0 modulo `2^16`. -/
theorem cvimgWrite_resum_even (host : Host) (signature : List Nat)
    (startAddr burnAddr : Nat) (stack : Nat → Nat) (payload : List Nat)
    (hb : IsBytes payload) (hev : payload.length % 2 = 0) :
    (cvimgWrite host signature startAddr burnAddr stack payload).out.drop 16
        = payload
          ++ be16 (cvimgWrite host signature startAddr burnAddr stack payload).checksum ∧
      beWordSum ((cvimgWrite host signature startAddr burnAddr stack payload).out.drop 16)
        % 2 ^ 16 = 0 := by
  obtain ⟨hdr, pad, hout, hhdr, hpad, _⟩ :=
    cvimgWrite_out host signature startAddr burnAddr stack payload
  have hp : pad = [] := List.eq_nil_of_length_eq_zero (by omega)
  have hdrop : (cvimgWrite host signature startAddr burnAddr stack payload).out.drop 16
      = payload
        ++ be16 (cvimgWrite host signature startAddr burnAddr stack payload).checksum := by
    rw [hout, hp, List.append_nil, List.append_assoc]
    exact List.drop_left' hhdr
  refine ⟨hdrop, ?_⟩
  rw [hdrop, beWordSum_append_even _ _ hev,
    cvimgWrite_checksum_even host signature startAddr burnAddr stack payload hb hev]
  have hlt := negate16_lt (beWordSum payload)
  have hw : beWordSum (be16 (negate16 (beWordSum payload))) = negate16 (beWordSum payload) := by
    simp only [be16, beWordSum]
    omega
  rw [hw]
  simp only [negate16] at *
  omega

theorem cvimgWrite_resum_even_witness :
    IsBytes [0x01, 0x02] ∧ [0x01, 0x02].length % 2 = 0 ∧
      (cvimgWrite { littleEndian := true, charSigned := true } DEF_SIGNATURE 0x80000000
          0x10000 (fun _ => 0) [0x01, 0x02]).out.drop 16
        = [0x01, 0x02] ++ be16 (cvimgWrite { littleEndian := true, charSigned := true }
            DEF_SIGNATURE 0x80000000 0x10000 (fun _ => 0) [0x01, 0x02]).checksum ∧
      beWordSum ((cvimgWrite { littleEndian := true, charSigned := true } DEF_SIGNATURE
          0x80000000 0x10000 (fun _ => 0) [0x01, 0x02]).out.drop 16) % 2 ^ 16 = 0 :=
  ⟨by decide, by decide,
    cvimgWrite_resum_even { littleEndian := true, charSigned := true } DEF_SIGNATURE
      0x80000000 0x10000 (fun _ => 0) [0x01, 0x02] (by decide) (by decide)⟩

/-- C5, evaluated on an input where the code departs from it. For the one-byte
payload `[0x41]` and the default signature the framer writes 20 bytes; the byte
at offset `16 + 1`, after the input byte and before the checksum, is `0x73`
(the second signature byte, left in `buf` by the header copy) and not `0x00`:
the zero is stored at `buf[n]` after `n++`, one position past the byte written. -/
theorem cvimgWrite_padding_byte (host : Host) (startAddr burnAddr : Nat)
    (stack : Nat → Nat) :
    (cvimgWrite host DEF_SIGNATURE startAddr burnAddr stack [0x41]).out.length = 20 ∧
      (cvimgWrite host DEF_SIGNATURE startAddr burnAddr stack [0x41]).out.drop 16
        = [0x41, 0x73, 0x00, 0x00] := by
  have h := (cvimgWrite_single host DEF_SIGNATURE startAddr burnAddr stack [0x41]
      (by simp) (by decide)).2
  rw [calcSum_singleton] at h
  rw [h]
  constructor
  · simp only [List.length_append, bufBytes_length, HEADER_LEN]
    rfl
  · simp only [List.append_assoc]
    rw [drop_header]
    simp [copyInto, headerImage, DEF_SIGNATURE, HEADER_LEN, be16, negate16]

/-! ## The block codec: further claims -/

set_option maxRecDepth 1000000 in
theorem keyByte_table :
    ∀ i, i < 256 → keyByte i = patternBytes.getD i 0 ∧ i / 4 < patterns.length := by
  decide

set_option maxRecDepth 1000000 in
theorem patternBytes_length : patterns.length = 64 ∧ patternBytes.length = 256 := by
  decide

/-- C16. Keystream derivation: for every position `i` in `[0,256)`, the
keystream byte `(patterns[i / 4] >> ((3 - i mod 4) * 8)) & 0xff` used by
`EncodeBlock100` is byte `i` of the 256-byte sequence formed by the 64 table
entries in order, each most significant byte first, so that `k(0..3)` is
`0xee, 0xdd, 0xcc, 0x21`; and `i / 4` is an index inside the 64-entry table. -/
theorem keyByte_eq_patternBytes (i : Nat) (hi : i < 256) :
    keyByte i = patternBytes.getD i 0 ∧ i / 4 < patterns.length ∧
      patterns.length = 64 ∧ patternBytes.length = 256 ∧
      (List.range 4).map keyByte = [0xee, 0xdd, 0xcc, 0x21] := by
  exact ⟨(keyByte_table i hi).1, (keyByte_table i hi).2, patternBytes_length.1,
    patternBytes_length.2, by decide⟩

theorem keyByte_eq_patternBytes_witness :
    5 < 256 ∧ keyByte 5 = patternBytes.getD 5 0 ∧ 5 / 4 < patterns.length ∧
      patterns.length = 64 ∧ patternBytes.length = 256 ∧
      (List.range 4).map keyByte = [0xee, 0xdd, 0xcc, 0x21] :=
  ⟨by decide, keyByte_eq_patternBytes 5 (by decide)⟩

/-- C17. Two independent blocks, same keystream: for every input image of
length at least 512 and either mode, output bytes `[0,256)` are
`EncodeBlock100` of input bytes `[0,256)` and output bytes `[256,512)` are
`EncodeBlock100` of input bytes `[256,512)`; the keystream restarts at the
second block, so output byte `256 + i` is determined by input byte `256 + i`
and `k(i)`. -/
theorem nosimgMain_blocks (input : List Nat) (decode : Bool) (hlen : 512 ≤ input.length) :
    (nosimgMain input decode).out.take 256 = EncodeBlock100 (input.take 256) decode ∧
      ((nosimgMain input decode).out.drop 256).take 256
        = EncodeBlock100 ((input.drop 256).take 256) decode ∧
      ∀ i, i < 256 →
        (nosimgMain input decode).out.getD i 0
            = (if decode then (input.getD i 0 + keyByte i) % 256
              else (input.getD i 0 + 256 - keyByte i) % 256) ∧
          (nosimgMain input decode).out.getD (256 + i) 0
            = (if decode then (input.getD (256 + i) 0 + keyByte i) % 256
              else (input.getD (256 + i) 0 + 256 - keyByte i) % 256) := by
  have hlen2 : 2 * ENCODE_BLKLEN ≤ input.length := hlen
  have hB : ENCODE_BLKLEN = 256 := rfl
  have l1 : (List.take ENCODE_BLKLEN input).length = ENCODE_BLKLEN := by
    rw [List.length_take]; omega
  have l2 : (List.take ENCODE_BLKLEN (List.drop ENCODE_BLKLEN input)).length
      = ENCODE_BLKLEN := by
    rw [List.length_take, List.length_drop]; omega
  rw [nosimgMain_of_le decode input hlen2]
  simp only
  generalize hE1 : EncodeBlock100 (List.take ENCODE_BLKLEN input) decode = E1
  generalize hE2 : EncodeBlock100
    (List.take ENCODE_BLKLEN (List.drop ENCODE_BLKLEN input)) decode = E2
  have m1 : E1.length = 256 := by rw [← hE1, EncodeBlock100_length, l1, hB]
  have m2 : E2.length = 256 := by rw [← hE2, EncodeBlock100_length, l2, hB]
  have a1 : List.take 256 (E1 ++ E2 ++ List.drop (2 * ENCODE_BLKLEN) input) = E1 := by
    rw [List.append_assoc]; exact List.take_left' m1
  have a2 : List.drop 256 (E1 ++ E2 ++ List.drop (2 * ENCODE_BLKLEN) input)
      = E2 ++ List.drop (2 * ENCODE_BLKLEN) input := by
    rw [List.append_assoc]; exact List.drop_left' m1
  have hbyte : ∀ d i, encodeByte d i decode
      = if decode then (d + keyByte i) % 256 else (d + 256 - keyByte i) % 256 := by
    intro d i
    cases decode
    · simp only [Bool.false_eq_true, ↓reduceIte]; exact encodeByte_encode d i
    · simp only [↓reduceIte]; exact encodeByte_decode d i
  refine ⟨by rw [a1, ← hE1, hB], by rw [a2, List.take_left' m2, ← hE2, hB], ?_⟩
  intro i hi
  have hi1 : i < ENCODE_BLKLEN := hi
  have hiE1 : i < E1.length := by omega
  have hiE2 : i < E2.length := by omega
  have hnE1 : ¬ 256 + i < E1.length := by omega
  have hsub : 256 + i - E1.length = i := by omega
  have hlt1 : i < input.length := by omega
  have hlt2 : 256 + i < input.length := by omega
  constructor
  · have h1 : (E1 ++ E2 ++ List.drop (2 * ENCODE_BLKLEN) input)[i]? = E1[i]? := by
      rw [List.append_assoc, List.getElem?_append, if_pos hiE1]
    have h2 := List.getElem?_eq_getElem hlt1
    rw [List.getD_eq_getElem?_getD, h1, ← hE1, EncodeBlock100_getElem?, if_pos hi1,
      List.getElem?_take, if_pos hi1, List.getD_eq_getElem?_getD, h2]
    simp only [Option.map_some', Option.getD_some]
    exact hbyte _ _
  · have h1 : (E1 ++ E2 ++ List.drop (2 * ENCODE_BLKLEN) input)[256 + i]? = E2[i]? := by
      rw [List.append_assoc, List.getElem?_append, if_neg hnE1,
        List.getElem?_append, hsub, if_pos hiE2]
    have h2 := List.getElem?_eq_getElem hlt2
    rw [List.getD_eq_getElem?_getD, h1, ← hE2, EncodeBlock100_getElem?, if_pos hi1,
      List.getElem?_take, if_pos hi1, List.getElem?_drop, hB, List.getD_eq_getElem?_getD, h2]
    simp only [Option.map_some', Option.getD_some]
    exact hbyte _ _

theorem nosimgMain_blocks_witness :
    512 ≤ (List.replicate 600 0x5a).length ∧
      (nosimgMain (List.replicate 600 0x5a) false).out.take 256
        = EncodeBlock100 ((List.replicate 600 0x5a).take 256) false ∧
      ((nosimgMain (List.replicate 600 0x5a) false).out.drop 256).take 256
        = EncodeBlock100 (((List.replicate 600 0x5a).drop 256).take 256) false ∧
      ∀ i, i < 256 →
        (nosimgMain (List.replicate 600 0x5a) false).out.getD i 0
            = (if false then ((List.replicate 600 0x5a).getD i 0 + keyByte i) % 256
              else ((List.replicate 600 0x5a).getD i 0 + 256 - keyByte i) % 256) ∧
          (nosimgMain (List.replicate 600 0x5a) false).out.getD (256 + i) 0
            = (if false then ((List.replicate 600 0x5a).getD (256 + i) 0 + keyByte i) % 256
              else ((List.replicate 600 0x5a).getD (256 + i) 0 + 256 - keyByte i) % 256) :=
  ⟨by rw [List.length_replicate]; decide,
    nosimgMain_blocks (List.replicate 600 0x5a) false
      (by rw [List.length_replicate]; decide)⟩

/-- C18. Output left behind by a rejected short image: for every input of
length `n < 512` and either mode, the codec fails; the bytes written to the
output are none if `n < 256`, and exactly the 256 transformed bytes of the
first block if `256 ≤ n < 512`. No byte of an incomplete block is written. -/
theorem nosimgMain_short_output (input : List Nat) (decode : Bool)
    (hlen : input.length < 512) :
    (nosimgMain input decode).ret = EXIT_FAILURE ∧
      (input.length < 256 → (nosimgMain input decode).out = []) ∧
      (256 ≤ input.length →
        (nosimgMain input decode).out = EncodeBlock100 (input.take 256) decode ∧
          (nosimgMain input decode).out.length = 256) := by
  have hlen2 : input.length < 2 * ENCODE_BLKLEN := hlen
  have hB : ENCODE_BLKLEN = 256 := rfl
  rw [nosimgMain_of_lt decode input hlen2]
  refine ⟨rfl, ?_, ?_⟩
  · intro h
    simp only
    rw [hB, if_pos h]
  · intro h
    simp only
    rw [hB, if_neg (by omega)]
    refine ⟨rfl, ?_⟩
    rw [EncodeBlock100_length, List.length_take]
    omega

theorem nosimgMain_short_output_witness :
    (List.replicate 300 0x5a).length < 512 ∧
      (nosimgMain (List.replicate 300 0x5a) true).ret = EXIT_FAILURE ∧
      ((List.replicate 300 0x5a).length < 256 →
        (nosimgMain (List.replicate 300 0x5a) true).out = []) ∧
      (256 ≤ (List.replicate 300 0x5a).length →
        (nosimgMain (List.replicate 300 0x5a) true).out
            = EncodeBlock100 ((List.replicate 300 0x5a).take 256) true ∧
          (nosimgMain (List.replicate 300 0x5a) true).out.length = 256) :=
  ⟨by rw [List.length_replicate]; decide,
    nosimgMain_short_output (List.replicate 300 0x5a) true
      (by rw [List.length_replicate]; decide)⟩

/-! ### Lemmas on the size check of cvimg.c -/

theorem paddedSize_eq (L : Nat) (h : L ≤ OFF_T_MAX) : paddedSize L = L + 2 + L % 2 := by
  unfold paddedSize
  simp only [ULONG_MOD, OFF_T_MAX] at *
  split <;> omega

theorem cvimgMain_of_gt (host : Host) (signature : List Nat) (startAddr burnAddr : Nat)
    (stack : Nat → Nat) (payload : List Nat) (h : paddedSize payload.length > UINT_MAX) :
    cvimgMain host signature startAddr burnAddr stack payload
      = { ret := EXIT_FAILURE, out := [], report := none, overrun := false } := by
  unfold cvimgMain
  simp only
  rw [if_pos h]

theorem cvimgMain_of_le (host : Host) (signature : List Nat) (startAddr burnAddr : Nat)
    (stack : Nat → Nat) (payload : List Nat) (h : ¬ paddedSize payload.length > UINT_MAX) :
    cvimgMain host signature startAddr burnAddr stack payload
      = { ret := EXIT_SUCCESS,
          out := (cvimgWrite host signature startAddr burnAddr stack payload).out,
          report := some
            { dataLen := (paddedSize payload.length + ULONG_MOD - 2) % ULONG_MOD
              totalLen := (paddedSize payload.length + HEADER_LEN) % ULONG_MOD
              checksum := HOST_TO_BE16 host (HOST_TO_BE16 host
                (cvimgWrite host signature startAddr burnAddr stack payload).checksum) },
          overrun := (cvimgWrite host signature startAddr burnAddr stack payload).overrun } := by
  unfold cvimgMain
  simp only
  rw [if_neg h]

/-- C11, as stated, fails at `L = 2^32 - 3`: this length satisfies
`L ≤ 2^32 - 1 - 2`, yet the framer rejects the input, because the odd size
`L + 2 = 2^32 - 1` is incremented to `2^32` before it is compared with
`UINT_MAX`. -/
theorem cvimgMain_size_limit_counterexample :
    (List.replicate (2 ^ 32 - 3) 0x00).length ≤ 2 ^ 32 - 1 - 2 ∧
      (cvimgMain { littleEndian := true, charSigned := true } DEF_SIGNATURE 0x80000000
        0x10000 (fun _ => 0) (List.replicate (2 ^ 32 - 3) 0x00)).ret = EXIT_FAILURE := by
  constructor
  · rw [List.length_replicate]
    decide
  · rw [cvimgMain_of_gt]
    rw [List.length_replicate]
    decide

/-- C11, amended. Size limit: with `L` the original payload length (a file
size, 64-bit `size_t` arithmetic), the framer rejects the input as too large
for every `L > 2^32 - 1 - 3`, and does not reject it as too large for any
`L ≤ 2^32 - 1 - 3`; the size compared with `UINT_MAX` is `L + 2` rounded up to
even. -/
theorem cvimgMain_size_limit (host : Host) (signature : List Nat) (startAddr burnAddr : Nat)
    (stack : Nat → Nat) (payload : List Nat) (hfile : payload.length ≤ OFF_T_MAX) :
    ((cvimgMain host signature startAddr burnAddr stack payload).ret = EXIT_FAILURE
        ↔ payload.length > 2 ^ 32 - 1 - 3) ∧
      ((cvimgMain host signature startAddr burnAddr stack payload).ret = EXIT_SUCCESS
        ↔ payload.length ≤ 2 ^ 32 - 1 - 3) := by
  have hp := paddedSize_eq payload.length hfile
  by_cases h : paddedSize payload.length > UINT_MAX
  · rw [cvimgMain_of_gt host signature startAddr burnAddr stack payload h]
    have hgt : payload.length > 2 ^ 32 - 1 - 3 := by
      simp only [UINT_MAX] at h; omega
    refine ⟨⟨fun _ => hgt, fun _ => rfl⟩, ⟨fun hc => ?_, fun hc => ?_⟩⟩
    · have hc2 : EXIT_FAILURE = EXIT_SUCCESS := hc
      exact absurd hc2 (by decide)
    · omega
  · rw [cvimgMain_of_le host signature startAddr burnAddr stack payload h]
    have hle : payload.length ≤ 2 ^ 32 - 1 - 3 := by
      simp only [UINT_MAX] at h; omega
    refine ⟨⟨fun hc => ?_, fun hc => ?_⟩, ⟨fun _ => hle, fun _ => rfl⟩⟩
    · have hc2 : EXIT_SUCCESS = EXIT_FAILURE := hc
      exact absurd hc2 (by decide)
    · omega

theorem cvimgMain_size_limit_witness :
    [0x01, 0x02, 0x03].length ≤ OFF_T_MAX ∧
      ((cvimgMain { littleEndian := true, charSigned := true } DEF_SIGNATURE 0x80000000
          0x10000 (fun _ => 0) [0x01, 0x02, 0x03]).ret = EXIT_FAILURE
        ↔ [0x01, 0x02, 0x03].length > 2 ^ 32 - 1 - 3) ∧
      ((cvimgMain { littleEndian := true, charSigned := true } DEF_SIGNATURE 0x80000000
          0x10000 (fun _ => 0) [0x01, 0x02, 0x03]).ret = EXIT_SUCCESS
        ↔ [0x01, 0x02, 0x03].length ≤ 2 ^ 32 - 1 - 3) :=
  ⟨by decide,
    cvimgMain_size_limit { littleEndian := true, charSigned := true } DEF_SIGNATURE
      0x80000000 0x10000 (fun _ => 0) [0x01, 0x02, 0x03] (by decide)⟩

theorem cvimgWrite_nil (host : Host) (signature : List Nat) (startAddr burnAddr : Nat)
    (stack : Nat → Nat) (hsig : signature.length = SIGNATURE_LEN)
    (hs : startAddr < 2 ^ 32) (hbn : burnAddr < 2 ^ 32) :
    cvimgWrite host signature startAddr burnAddr stack []
      = { out := signature ++ be32 startAddr ++ be32 burnAddr ++ be32 2 ++ [0x00, 0x00],
          checksum := 0, overrun := false } := by
  have hc : (cvimgWrite host signature startAddr burnAddr stack []).checksum = 0 := by
    unfold cvimgWrite
    simp only
    rw [writeChunks_checksum, freadChunks_nil]
    simp only [List.foldl_nil]
    decide
  have ho : (cvimgWrite host signature startAddr burnAddr stack []).out
      = signature ++ be32 startAddr ++ be32 burnAddr ++ be32 2 ++ [0x00, 0x00] := by
    obtain ⟨hdr, pad, hout, _, hpad, hdef⟩ :=
      cvimgWrite_out host signature startAddr burnAddr stack []
    have hp : pad = [] := List.eq_nil_of_length_eq_zero (by simpa using hpad)
    have hmod : (([] : List Nat).length + 2) % ULONG_MOD = 2 := by decide
    rw [hmod, headerBytes_written host signature startAddr burnAddr 2 stack hsig hs hbn
      (by decide)] at hdef
    rw [hout, hc, hp, hdef]
    simp [be16]
  have hv : (cvimgWrite host signature startAddr burnAddr stack []).overrun = false := by
    unfold cvimgWrite
    simp only
    rw [freadChunks_nil]
    rfl
  cases hw : cvimgWrite host signature startAddr burnAddr stack [] with
  | mk out checksum overrun =>
    rw [hw] at hc ho hv
    simp only at hc ho hv
    rw [hc, ho, hv]

/-- C13. Empty payload: for the zero-length payload and any 4-byte signature
and 32-bit addresses, the framer succeeds, computes the checksum `0x0000`
(`(~0 & 0xFFFF) + 1 = 0x10000` truncated to 16 bits), writes `len = 2` in the
header, and produces exactly 18 output bytes: the 16-byte header, no payload or
padding, and the 2-byte checksum. -/
theorem cvimgMain_empty (host : Host) (signature : List Nat) (startAddr burnAddr : Nat)
    (stack : Nat → Nat) (hsig : signature.length = SIGNATURE_LEN)
    (hs : startAddr < 2 ^ 32) (hbn : burnAddr < 2 ^ 32) :
    (cvimgMain host signature startAddr burnAddr stack []).ret = EXIT_SUCCESS ∧
      (cvimgMain host signature startAddr burnAddr stack []).out
        = signature ++ be32 startAddr ++ be32 burnAddr ++ be32 2 ++ [0x00, 0x00] ∧
      (cvimgMain host signature startAddr burnAddr stack []).out.length = 18 ∧
      (cvimgMain host signature startAddr burnAddr stack []).report.map (fun r => r.checksum)
        = some 0x0000 ∧
      (cvimgWrite host signature startAddr burnAddr stack []).checksum = 0x0000 ∧
      ((ULONG_MOD - 1 - 0) &&& 0xFFFF) + 1 = 0x10000 ∧ 0x10000 % 2 ^ 16 = 0 := by
  have hsz : ¬ paddedSize ([] : List Nat).length > UINT_MAX := by decide
  rw [cvimgMain_of_le host signature startAddr burnAddr stack [] hsz,
    cvimgWrite_nil host signature startAddr burnAddr stack hsig hs hbn]
  refine ⟨rfl, rfl, ?_, ?_, rfl, by decide, by decide⟩
  · simp only [List.length_append, hsig, be32, List.length_cons, List.length_nil,
      SIGNATURE_LEN]
  · simp only [Option.map_some', Option.some.injEq]
    exact HOST_TO_BE16_twice host 0 (by decide)

theorem cvimgMain_empty_witness :
    DEF_SIGNATURE.length = SIGNATURE_LEN ∧ 0x80000000 < 2 ^ 32 ∧ 0x10000 < 2 ^ 32 ∧
      (cvimgMain { littleEndian := true, charSigned := true } DEF_SIGNATURE 0x80000000
        0x10000 (fun _ => 0xAA) []).ret = EXIT_SUCCESS ∧
      (cvimgMain { littleEndian := true, charSigned := true } DEF_SIGNATURE 0x80000000
          0x10000 (fun _ => 0xAA) []).out
        = DEF_SIGNATURE ++ be32 0x80000000 ++ be32 0x10000 ++ be32 2 ++ [0x00, 0x00] ∧
      (cvimgMain { littleEndian := true, charSigned := true } DEF_SIGNATURE 0x80000000
        0x10000 (fun _ => 0xAA) []).out.length = 18 ∧
      (cvimgMain { littleEndian := true, charSigned := true } DEF_SIGNATURE 0x80000000
          0x10000 (fun _ => 0xAA) []).report.map (fun r => r.checksum)
        = some 0x0000 ∧
      (cvimgWrite { littleEndian := true, charSigned := true } DEF_SIGNATURE 0x80000000
        0x10000 (fun _ => 0xAA) []).checksum = 0x0000 ∧
      ((ULONG_MOD - 1 - 0) &&& 0xFFFF) + 1 = 0x10000 ∧ 0x10000 % 2 ^ 16 = 0 :=
  ⟨by decide, by decide, by decide,
    cvimgMain_empty { littleEndian := true, charSigned := true } DEF_SIGNATURE 0x80000000
      0x10000 (fun _ => 0xAA) (by decide) (by decide) (by decide)⟩

/-- The write phase on a payload of even length. -/
theorem cvimgWrite_even (host : Host) (signature : List Nat) (startAddr burnAddr : Nat)
    (stack : Nat → Nat) (payload : List Nat) (hsig : signature.length = SIGNATURE_LEN)
    (hs : startAddr < 2 ^ 32) (hbn : burnAddr < 2 ^ 32) (hb : IsBytes payload)
    (hev : payload.length % 2 = 0) (hl : payload.length + 2 < 2 ^ 32) :
    (cvimgWrite host signature startAddr burnAddr stack payload).checksum
        = negate16 (beWordSum payload) ∧
      (cvimgWrite host signature startAddr burnAddr stack payload).out
        = signature ++ be32 startAddr ++ be32 burnAddr ++ be32 (payload.length + 2)
          ++ payload ++ be16 (negate16 (beWordSum payload)) := by
  have hc := cvimgWrite_checksum_even host signature startAddr burnAddr stack payload hb hev
  refine ⟨hc, ?_⟩
  obtain ⟨hdr, pad, hout, _, hpad, hdef⟩ :=
    cvimgWrite_out host signature startAddr burnAddr stack payload
  have hp : pad = [] := List.eq_nil_of_length_eq_zero (by omega)
  have hmod : (payload.length + 2) % ULONG_MOD = payload.length + 2 := by
    apply Nat.mod_eq_of_lt
    simp only [ULONG_MOD]; omega
  rw [hmod, headerBytes_written host signature startAddr burnAddr (payload.length + 2) stack
    hsig hs hbn hl] at hdef
  rw [hout, hc, hp, hdef, List.append_nil]

/-- C14. Even-length payloads: for every payload of even length `L ≤ 0x10000`
(no padding), the framer succeeds and its checksum is
`(2^16 - (sum of the big-endian 16-bit words mod 2^16)) mod 2^16`, so that the
word sum plus the checksum is 0 modulo `2^16`, and the header `len` is `L + 2`;
for the payload `[0x01, 0x02]` the sum is `0x0102`, the checksum `0xFEFE` and
`len` is 4. -/
theorem cvimgMain_even_payload (host : Host) (signature : List Nat)
    (startAddr burnAddr : Nat) (stack : Nat → Nat) (payload : List Nat)
    (hsig : signature.length = SIGNATURE_LEN) (hs : startAddr < 2 ^ 32)
    (hbn : burnAddr < 2 ^ 32) (hb : IsBytes payload) (hev : payload.length % 2 = 0)
    (hle : payload.length ≤ 0x10000) :
    (cvimgMain host signature startAddr burnAddr stack payload).ret = EXIT_SUCCESS ∧
      (cvimgMain host signature startAddr burnAddr stack payload).report.map
          (fun r => r.checksum)
        = some ((2 ^ 16 - beWordSum payload % 2 ^ 16) % 2 ^ 16) ∧
      (beWordSum payload + (2 ^ 16 - beWordSum payload % 2 ^ 16) % 2 ^ 16) % 2 ^ 16 = 0 ∧
      (cvimgMain host signature startAddr burnAddr stack payload).out
        = signature ++ be32 startAddr ++ be32 burnAddr ++ be32 (payload.length + 2)
          ++ payload ++ be16 ((2 ^ 16 - beWordSum payload % 2 ^ 16) % 2 ^ 16) ∧
      beWordSum [0x01, 0x02] = 0x0102 ∧
      (cvimgMain host signature startAddr burnAddr stack [0x01, 0x02]).report.map
          (fun r => r.checksum) = some 0xFEFE ∧
      (cvimgMain host signature startAddr burnAddr stack [0x01, 0x02]).out
        = signature ++ be32 startAddr ++ be32 burnAddr ++ be32 4
          ++ [0x01, 0x02] ++ [0xFE, 0xFE] := by
  have key : ∀ p : List Nat, IsBytes p → p.length % 2 = 0 → p.length ≤ 0x10000 →
      (cvimgMain host signature startAddr burnAddr stack p).ret = EXIT_SUCCESS ∧
      (cvimgMain host signature startAddr burnAddr stack p).report.map (fun r => r.checksum)
        = some (negate16 (beWordSum p)) ∧
      (cvimgMain host signature startAddr burnAddr stack p).out
        = signature ++ be32 startAddr ++ be32 burnAddr ++ be32 (p.length + 2)
          ++ p ++ be16 (negate16 (beWordSum p)) := by
    intro p hpb hpe hpl
    have hfile : p.length ≤ OFF_T_MAX := by simp only [OFF_T_MAX]; omega
    have hsz : ¬ paddedSize p.length > UINT_MAX := by
      rw [paddedSize_eq p.length hfile]
      simp only [UINT_MAX]; omega
    obtain ⟨hc, ho⟩ := cvimgWrite_even host signature startAddr burnAddr stack p hsig hs hbn
      hpb hpe (by omega)
    rw [cvimgMain_of_le host signature startAddr burnAddr stack p hsz]
    refine ⟨rfl, ?_, ho⟩
    simp only [Option.map_some', Option.some.injEq]
    rw [hc]
    exact HOST_TO_BE16_twice host _ (negate16_lt _)
  obtain ⟨k1, k2, k3⟩ := key payload hb hev hle
  obtain ⟨_, e2, e3⟩ := key [0x01, 0x02] (by decide) (by decide) (by decide)
  refine ⟨k1, k2, ?_, k3, by decide, e2, e3⟩
  omega

theorem cvimgMain_even_payload_witness :
    DEF_SIGNATURE.length = SIGNATURE_LEN ∧ 0x80000000 < 2 ^ 32 ∧ 0x10000 < 2 ^ 32 ∧
      IsBytes [0x12, 0x34, 0x56, 0x78] ∧ [0x12, 0x34, 0x56, 0x78].length % 2 = 0 ∧
      [0x12, 0x34, 0x56, 0x78].length ≤ 0x10000 ∧
      (cvimgMain { littleEndian := true, charSigned := true } DEF_SIGNATURE 0x80000000
        0x10000 (fun _ => 0xAA) [0x12, 0x34, 0x56, 0x78]).ret = EXIT_SUCCESS ∧
      (cvimgMain { littleEndian := true, charSigned := true } DEF_SIGNATURE 0x80000000
          0x10000 (fun _ => 0xAA) [0x12, 0x34, 0x56, 0x78]).report.map (fun r => r.checksum)
        = some ((2 ^ 16 - beWordSum [0x12, 0x34, 0x56, 0x78] % 2 ^ 16) % 2 ^ 16) ∧
      (beWordSum [0x12, 0x34, 0x56, 0x78]
        + (2 ^ 16 - beWordSum [0x12, 0x34, 0x56, 0x78] % 2 ^ 16) % 2 ^ 16) % 2 ^ 16 = 0 ∧
      (cvimgMain { littleEndian := true, charSigned := true } DEF_SIGNATURE 0x80000000
          0x10000 (fun _ => 0xAA) [0x12, 0x34, 0x56, 0x78]).out
        = DEF_SIGNATURE ++ be32 0x80000000 ++ be32 0x10000
          ++ be32 ([0x12, 0x34, 0x56, 0x78].length + 2) ++ [0x12, 0x34, 0x56, 0x78]
          ++ be16 ((2 ^ 16 - beWordSum [0x12, 0x34, 0x56, 0x78] % 2 ^ 16) % 2 ^ 16) ∧
      beWordSum [0x01, 0x02] = 0x0102 ∧
      (cvimgMain { littleEndian := true, charSigned := true } DEF_SIGNATURE 0x80000000
          0x10000 (fun _ => 0xAA) [0x01, 0x02]).report.map (fun r => r.checksum)
        = some 0xFEFE ∧
      (cvimgMain { littleEndian := true, charSigned := true } DEF_SIGNATURE 0x80000000
          0x10000 (fun _ => 0xAA) [0x01, 0x02]).out
        = DEF_SIGNATURE ++ be32 0x80000000 ++ be32 0x10000 ++ be32 4
          ++ [0x01, 0x02] ++ [0xFE, 0xFE] :=
  ⟨by decide, by decide, by decide, by decide, by decide, by decide,
    cvimgMain_even_payload { littleEndian := true, charSigned := true } DEF_SIGNATURE
      0x80000000 0x10000 (fun _ => 0xAA) [0x12, 0x34, 0x56, 0x78] (by decide) (by decide)
      (by decide) (by decide) (by decide) (by decide)⟩

/-- C19, as stated, fails on a payload of odd length: for the payload
`[0x01, 0x02, 0x03]` of length 3 the framer succeeds and reports
`data len : 4`. -/
theorem cvimgMain_dataLen_counterexample :
    [0x01, 0x02, 0x03].length = 3 ∧
      (cvimgMain { littleEndian := true, charSigned := true } DEF_SIGNATURE 0x80000000
        0x10000 (fun _ => 0) [0x01, 0x02, 0x03]).ret = EXIT_SUCCESS ∧
      (cvimgMain { littleEndian := true, charSigned := true } DEF_SIGNATURE 0x80000000
        0x10000 (fun _ => 0) [0x01, 0x02, 0x03]).report.map (fun r => r.dataLen) = some 4 := by
  have hsz : ¬ paddedSize [0x01, 0x02, 0x03].length > UINT_MAX := by decide
  rw [cvimgMain_of_le _ DEF_SIGNATURE 0x80000000 0x10000 (fun _ => 0) [0x01, 0x02, 0x03] hsz]
  refine ⟨rfl, rfl, ?_⟩
  simp only [Option.map_some', Option.some.injEq]
  decide

/-! ### Lemmas on the padding step of cvimg.c -/

/-- The padding store of an iteration lands past the end of `buf` exactly when
the chunk has odd length and `n + 1` is not below `BUF_LEN`. -/
theorem chunkStep_overrun (host : Host) (st : LoopState) (chunk : List Nat) :
    (chunkStep host st chunk).overrun
      = (st.overrun || decide (chunk.length % 2 ≠ 0 ∧ BUF_LEN ≤ chunk.length + 1)) := by
  unfold chunkStep
  by_cases h : chunk.length % 2 ≠ 0
  · rw [if_pos h]
    simp only
    unfold storeByte
    by_cases hlt : chunk.length + 1 < BUF_LEN
    · rw [if_pos hlt]
      have hn : ¬ (chunk.length % 2 ≠ 0 ∧ BUF_LEN ≤ chunk.length + 1) := by omega
      rw [decide_eq_false hn]
    · rw [if_neg hlt]
      have hn : chunk.length % 2 ≠ 0 ∧ BUF_LEN ≤ chunk.length + 1 := ⟨h, by omega⟩
      rw [decide_eq_true hn]
  · rw [if_neg h]
    have hn : ¬ (chunk.length % 2 ≠ 0 ∧ BUF_LEN ≤ chunk.length + 1) := fun hc => h hc.1
    rw [decide_eq_false hn, Bool.or_false]

theorem cvimgWrite_overrun_single (host : Host) (signature : List Nat)
    (startAddr burnAddr : Nat) (stack : Nat → Nat) (payload : List Nat) (h0 : payload ≠ [])
    (hle : payload.length ≤ BUF_LEN) :
    (cvimgWrite host signature startAddr burnAddr stack payload).overrun
      = decide (payload.length % 2 ≠ 0 ∧ BUF_LEN ≤ payload.length + 1) := by
  unfold cvimgWrite writeChunks
  simp only
  rw [freadChunks_short payload h0 hle]
  simp only [List.foldl_cons, List.foldl_nil]
  rw [chunkStep_overrun]
  simp only [Bool.false_or]

theorem cvimgMain_fields_of_le (host : Host) (signature : List Nat)
    (startAddr burnAddr : Nat) (stack : Nat → Nat) (payload : List Nat)
    (h : ¬ paddedSize payload.length > UINT_MAX) :
    (cvimgMain host signature startAddr burnAddr stack payload).ret = EXIT_SUCCESS ∧
      (cvimgMain host signature startAddr burnAddr stack payload).out
        = (cvimgWrite host signature startAddr burnAddr stack payload).out ∧
      (cvimgMain host signature startAddr burnAddr stack payload).overrun
        = (cvimgWrite host signature startAddr burnAddr stack payload).overrun := by
  rw [cvimgMain_of_le host signature startAddr burnAddr stack payload h]
  exact ⟨rfl, rfl, rfl⟩

/-- C20, evaluated on an input where the code departs from it. For a file of
`0xFFFF` bytes the read loop returns one chunk of length `n = 0xFFFF`; the
padding step stores its zero at index `n + 1 = 0x10000`, which is not below
`BUF_LEN`: the store lands one byte past the end of `buf`. For every chunk
length up to `0x10000` other than `0xFFFF` the store, if any, is inside the
buffer, and the number of bytes then written never exceeds `0x10000`. -/
theorem chunkStep_padding_store (host : Host) (signature : List Nat)
    (startAddr burnAddr : Nat) (stack : Nat → Nat) (st : LoopState) :
    ¬ (0xFFFF + 1 < BUF_LEN) ∧
      (storeByte st.buf (0xFFFF + 1) 0).2 = true ∧
      (chunkStep host st (List.replicate 0xFFFF 0x00)).overrun = true ∧
      (cvimgMain host signature startAddr burnAddr stack (List.replicate 0xFFFF 0x00)).ret
        = EXIT_SUCCESS ∧
      (cvimgMain host signature startAddr burnAddr stack (List.replicate 0xFFFF 0x00)).overrun
        = true ∧
      (∀ chunk : List Nat, chunk.length ≤ BUF_LEN → chunk.length ≠ 0xFFFF →
        (chunkStep host st chunk).overrun = st.overrun) ∧
      (∀ chunk : List Nat, chunk.length ≤ BUF_LEN →
        (chunkStep host st chunk).out.length ≤ st.out.length + BUF_LEN) := by
  have hB : BUF_LEN = 0x10000 := rfl
  have hlen : (List.replicate 0xFFFF 0x00).length = 0xFFFF := List.length_replicate _ _
  have hne : List.replicate 0xFFFF 0x00 ≠ [] := by
    intro hc
    rw [hc] at hlen
    exact absurd hlen (by decide)
  refine ⟨by decide, ?_, ?_, ?_, ?_, ?_, ?_⟩
  · unfold storeByte
    rw [if_neg (by decide)]
  · rw [chunkStep_overrun, hlen]
    have : decide (0xFFFF % 2 ≠ 0 ∧ BUF_LEN ≤ 0xFFFF + 1) = true := by decide
    rw [this, Bool.or_true]
  · have hsz : ¬ paddedSize (List.replicate 0xFFFF 0x00).length > UINT_MAX := by
      rw [hlen]; decide
    exact (cvimgMain_fields_of_le host signature startAddr burnAddr stack _ hsz).1
  · have hsz : ¬ paddedSize (List.replicate 0xFFFF 0x00).length > UINT_MAX := by
      rw [hlen]; decide
    have hle : (List.replicate 0xFFFF 0x00).length ≤ BUF_LEN := by rw [hlen]; decide
    rw [(cvimgMain_fields_of_le host signature startAddr burnAddr stack _ hsz).2.2,
      cvimgWrite_overrun_single host signature startAddr burnAddr stack _ hne hle, hlen]
    decide
  · intro chunk hle hn
    rw [chunkStep_overrun]
    have hf : ¬ (chunk.length % 2 ≠ 0 ∧ BUF_LEN ≤ chunk.length + 1) := by omega
    rw [decide_eq_false hf, Bool.or_false]
  · intro chunk hle
    rw [chunkStep_out]
    simp only [List.length_append]
    split
    · simp only [List.length_cons, List.length_nil]
      omega
    · simp only [List.length_nil]
      omega

/-- C15, evaluated on an input where the code departs from it. For a payload of
17 bytes the framer succeeds and the byte it writes at offset `16 + 17`, the
padding byte, is what the storage of `buf` held at index 17 before the run;
two runs on the same input and parameters whose buffers held `0x00` and `0xFF`
there produce different outputs. -/
theorem cvimgMain_output_depends_on_buffer (host : Host) (signature : List Nat)
    (startAddr burnAddr : Nat) (stack : Nat → Nat) :
    (cvimgMain host signature startAddr burnAddr stack (List.replicate 17 0x41)).ret
        = EXIT_SUCCESS ∧
      (cvimgMain host signature startAddr burnAddr stack (List.replicate 17 0x41)).out[33]?
        = some (stack 17) ∧
      (cvimgMain host signature startAddr burnAddr (fun _ => 0x00)
          (List.replicate 17 0x41)).out
        ≠ (cvimgMain host signature startAddr burnAddr (fun _ => 0xFF)
          (List.replicate 17 0x41)).out := by
  have hlen : (List.replicate 17 0x41).length = 17 := List.length_replicate _ _
  have hne : List.replicate 17 0x41 ≠ [] := by
    intro hc
    rw [hc] at hlen
    exact absurd hlen (by decide)
  have hsz : ¬ paddedSize (List.replicate 17 0x41).length > UINT_MAX := by
    rw [hlen]; decide
  have hle : (List.replicate 17 0x41).length ≤ BUF_LEN := by rw [hlen]; decide
  have key : ∀ stk : Nat → Nat,
      (cvimgMain host signature startAddr burnAddr stk (List.replicate 17 0x41)).out[33]?
        = some (stk 17) := by
    intro stk
    rw [(cvimgMain_fields_of_le host signature startAddr burnAddr stk _ hsz).2.1,
      (cvimgWrite_single host signature startAddr burnAddr stk _ hne hle).2, hlen]
    have hodd : (17 : Nat) % 2 ≠ 0 := by decide
    rw [if_pos hodd]
    generalize hh : headerImage host
      { signature := signature
        startAddr := HOST_TO_BE32 host startAddr % 2 ^ 32
        burnAddr := HOST_TO_BE32 host burnAddr % 2 ^ 32
        len := HOST_TO_BE32 host ((17 + 2) % ULONG_MOD) % 2 ^ 32 } = img
    have hpad : copyInto stk (List.take HEADER_LEN img) 17 = stk 17 := by
      unfold copyInto
      have hl : ¬ 17 < (List.take HEADER_LEN img).length := by
        have := List.length_take_le HEADER_LEN img
        simp only [HEADER_LEN] at this ⊢
        omega
      rw [if_neg hl]
    rw [hpad]
    have hpre : (bufBytes (copyInto stk (List.take HEADER_LEN img)) HEADER_LEN
        ++ List.replicate 17 0x41).length = 33 := by
      rw [List.length_append, bufBytes_length, hlen]
      rfl
    rw [List.append_assoc _ [stk 17], List.getElem?_append, hpre, if_neg (by decide)]
    rfl
  refine ⟨(cvimgMain_fields_of_le host signature startAddr burnAddr stack _ hsz).1,
    key stack, ?_⟩
  intro hc
  have h1 := key (fun _ => 0x00)
  have h2 := key (fun _ => 0xFF)
  rw [hc, h2] at h1
  exact absurd h1 (by decide)

/-! ### Lemmas on `calcSum` on inputs of any length -/

theorem charValue_eq (host : Host) (b : Nat) (h : host.charSigned = false ∨ b < 128) :
    charValue host b = b := by
  unfold charValue
  cases h with
  | inl hs => simp [hs]
  | inr hb =>
    have hd : decide (128 ≤ b) = false := decide_eq_false (by omega)
    simp [hd]

/-- The loop of `calcSum` adds the big-endian words and the final unpaired byte
of its input, except on an input of one byte and except where a final byte of
`0x80` or more is sign-extended. -/
theorem calcSumLoop_faithful (host : Host) : ∀ (l : List Nat) (s : Nat), IsBytes l →
    s < ULONG_MOD →
    (l.length % 2 = 0 ∨
      (3 ≤ l.length ∧ (host.charSigned = false ∨ ∀ b, l.getLast? = some b → b < 128))) →
    calcSumLoop host l s = (s + beWordSum l) % ULONG_MOD
  | [], s, _, hs, _ => by
    simp only [calcSumLoop, beWordSum, Nat.add_zero]
    exact (Nat.mod_eq_of_lt hs).symm
  | [a], s, _, _, hok => by
    simp only [List.length_cons, List.length_nil] at hok
    omega
  | [a, b], s, hb, _, _ => by
    have ha : a < 256 := hb a (by simp)
    have hb2 : b < 256 := hb b (by simp)
    show (s + HOST_TO_BE16 host (load16 host a b)) % ULONG_MOD
      = (s + (a * 256 + b + 0)) % ULONG_MOD
    rw [HOST_TO_BE16_load16 host a b ha hb2, Nat.add_zero]
  | [a, b, c], s, hb, _, hok => by
    have ha : a < 256 := hb a (by simp)
    have hb2 : b < 256 := hb b (by simp)
    have hc : host.charSigned = false ∨ c < 128 := by
      cases hok with
      | inl he =>
        simp only [List.length_cons, List.length_nil] at he
        omega
      | inr h3 =>
        cases h3.2 with
        | inl hs => exact Or.inl hs
        | inr hl => exact Or.inr (hl c rfl)
    show ((s + HOST_TO_BE16 host (load16 host a b)) % ULONG_MOD + charValue host c)
        % ULONG_MOD = (s + (a * 256 + b + c)) % ULONG_MOD
    rw [HOST_TO_BE16_load16 host a b ha hb2, charValue_eq host c hc]
    simp only [ULONG_MOD]
    omega
  | a :: b :: c :: d :: rest, s, hb, _, hok => by
    have ha : a < 256 := hb a (by simp)
    have hb2 : b < 256 := hb b (by simp)
    have hrest : IsBytes (c :: d :: rest) := fun x hx => hb x (by simp at hx ⊢; tauto)
    have hok2 : (c :: d :: rest).length % 2 = 0 ∨
        (3 ≤ (c :: d :: rest).length ∧
          (host.charSigned = false ∨ ∀ x, (c :: d :: rest).getLast? = some x → x < 128)) := by
      cases hok with
      | inl he =>
        left
        simp only [List.length_cons] at he ⊢
        omega
      | inr h3 =>
        by_cases hp : (c :: d :: rest).length % 2 = 0
        · exact Or.inl hp
        · right
          refine ⟨?_, ?_⟩
          · simp only [List.length_cons] at hp ⊢
            omega
          · cases h3.2 with
            | inl hs => exact Or.inl hs
            | inr hl =>
              right
              intro x hx
              apply hl x
              rw [List.getLast?_cons_cons, List.getLast?_cons_cons]
              exact hx
    have hne : ¬ (c :: d :: rest).length = 1 := by
      simp only [List.length_cons]; omega
    have ih := calcSumLoop_faithful host (c :: d :: rest)
      ((s + HOST_TO_BE16 host (load16 host a b)) % ULONG_MOD) hrest
      (Nat.mod_lt _ (by decide)) hok2
    show calcSumLoop host (c :: d :: rest)
        (if (c :: d :: rest).length = 1 then
          ((s + HOST_TO_BE16 host (load16 host a b)) % ULONG_MOD
            + charValue host ((c :: d :: rest).headD 0)) % ULONG_MOD
        else (s + HOST_TO_BE16 host (load16 host a b)) % ULONG_MOD)
      = (s + (a * 256 + b + beWordSum (c :: d :: rest))) % ULONG_MOD
    rw [if_neg hne, ih, HOST_TO_BE16_load16 host a b ha hb2]
    simp only [ULONG_MOD]
    omega

theorem calcSum_faithful (host : Host) (l : List Nat) (hb : IsBytes l)
    (hok : l.length % 2 = 0 ∨
      (3 ≤ l.length ∧ (host.charSigned = false ∨ ∀ b, l.getLast? = some b → b < 128))) :
    calcSum host l = beWordSum l % ULONG_MOD := by
  unfold calcSum
  rw [calcSumLoop_faithful host l 0 hb (by decide) hok, Nat.zero_add]

/-! ### Lemmas on runs without a store outside the buffer -/

theorem dataLoop_overrun_aux (host : Host) (n : Nat) : ∀ (inp : List Nat) (st : LoopState),
    inp.length = n →
    ((freadChunks inp).foldl (chunkStep host) st).overrun
      = (st.overrun || decide (inp.length % BUF_LEN = 0xFFFF)) := by
  induction n using Nat.strong_induction_on with
  | _ n ih =>
    intro inp st hn
    have hB : BUF_LEN = 0x10000 := rfl
    by_cases h0 : inp = []
    · subst h0
      have hf : ¬ ([] : List Nat).length % BUF_LEN = 0xFFFF := by decide
      rw [freadChunks_nil, List.foldl_nil, decide_eq_false hf, Bool.or_false]
    · have hpos : 0 < inp.length := List.length_pos.mpr h0
      by_cases hle : inp.length ≤ BUF_LEN
      · rw [freadChunks_short inp h0 hle]
        simp only [List.foldl_cons, List.foldl_nil]
        rw [chunkStep_overrun]
        congr 1
        rw [decide_eq_decide]
        rw [hB] at hle ⊢
        omega
      · have htake : (List.take BUF_LEN inp).length = BUF_LEN := by
          rw [List.length_take]; omega
        have hdrop : (List.drop BUF_LEN inp).length < n := by
          rw [List.length_drop]; omega
        rw [freadChunks_cons inp h0]
        simp only [List.foldl_cons]
        rw [ih _ hdrop (List.drop BUF_LEN inp) (chunkStep host st (List.take BUF_LEN inp)) rfl,
          chunkStep_overrun, htake]
        have hf : ¬ (BUF_LEN % 2 ≠ 0 ∧ BUF_LEN ≤ BUF_LEN + 1) := by
          rw [hB]; omega
        rw [decide_eq_false hf, Bool.or_false, List.length_drop]
        have e : decide ((inp.length - BUF_LEN) % BUF_LEN = 0xFFFF)
            = decide (inp.length % BUF_LEN = 0xFFFF) := by
          rw [decide_eq_decide]
          rw [hB] at hle ⊢
          omega
        rw [e]

/-- The write phase makes a store outside `buf` exactly when the last chunk
read has `0xFFFF` bytes, that is when the length of the payload is `0xFFFF`
modulo `0x10000`. -/
theorem cvimgWrite_overrun_eq (host : Host) (signature : List Nat)
    (startAddr burnAddr : Nat) (stack : Nat → Nat) (payload : List Nat) :
    (cvimgWrite host signature startAddr burnAddr stack payload).overrun
      = decide (payload.length % BUF_LEN = 0xFFFF) := by
  unfold cvimgWrite writeChunks
  simp only
  rw [dataLoop_overrun_aux host payload.length payload _ rfl, Bool.false_or]

theorem cvimgMain_overrun_eq (host : Host) (signature : List Nat)
    (startAddr burnAddr : Nat) (stack : Nat → Nat) (payload : List Nat)
    (h : ¬ paddedSize payload.length > UINT_MAX) :
    (cvimgMain host signature startAddr burnAddr stack payload).overrun
      = decide (payload.length % BUF_LEN = 0xFFFF) := by
  rw [(cvimgMain_fields_of_le host signature startAddr burnAddr stack payload h).2.2,
    cvimgWrite_overrun_eq]

/-! ## The header+checksum framer: claims on runs without a store outside the buffer -/

/-- C19, amended. Reported payload length: for every accepted input of original
length `L`, in a run that makes no store outside `buf` (`L mod 0x10000` is not
`0xFFFF`), the `data len` value the framer reports on success is `L` rounded
up to even (`L` for even `L`, `L + 1` for odd `L`): the length of the payload as
written, padding included, excluding the checksum. -/
theorem cvimgMain_dataLen (host : Host) (signature : List Nat) (startAddr burnAddr : Nat)
    (stack : Nat → Nat) (payload : List Nat) (hfile : payload.length ≤ OFF_T_MAX)
    (hok : (cvimgMain host signature startAddr burnAddr stack payload).ret = EXIT_SUCCESS)
    (hno : (cvimgMain host signature startAddr burnAddr stack payload).overrun = false) :
    (cvimgMain host signature startAddr burnAddr stack payload).report.map
        (fun r => r.dataLen) = some (payload.length + payload.length % 2) ∧
      payload.length % 0x10000 ≠ 0xFFFF := by
  have hp := paddedSize_eq payload.length hfile
  by_cases h : paddedSize payload.length > UINT_MAX
  · rw [cvimgMain_of_gt host signature startAddr burnAddr stack payload h] at hok
    have hc2 : EXIT_FAILURE = EXIT_SUCCESS := hok
    exact absurd hc2 (by decide)
  · have hmodL : payload.length % 0x10000 ≠ 0xFFFF := by
      rw [cvimgMain_overrun_eq host signature startAddr burnAddr stack payload h] at hno
      exact of_decide_eq_false hno
    refine ⟨?_, hmodL⟩
    rw [cvimgMain_of_le host signature startAddr burnAddr stack payload h]
    simp only [Option.map_some', Option.some.injEq]
    rw [hp]
    simp only [ULONG_MOD, OFF_T_MAX] at *
    omega

theorem cvimgMain_dataLen_witness :
    [0x01, 0x02, 0x03].length ≤ OFF_T_MAX ∧
      (cvimgMain { littleEndian := true, charSigned := true } DEF_SIGNATURE 0x80000000
        0x10000 (fun _ => 0) [0x01, 0x02, 0x03]).ret = EXIT_SUCCESS ∧
      (cvimgMain { littleEndian := true, charSigned := true } DEF_SIGNATURE 0x80000000
        0x10000 (fun _ => 0) [0x01, 0x02, 0x03]).overrun = false ∧
      (cvimgMain { littleEndian := true, charSigned := true } DEF_SIGNATURE 0x80000000
          0x10000 (fun _ => 0) [0x01, 0x02, 0x03]).report.map (fun r => r.dataLen)
        = some ([0x01, 0x02, 0x03].length + [0x01, 0x02, 0x03].length % 2) ∧
      [0x01, 0x02, 0x03].length % 0x10000 ≠ 0xFFFF :=
  have hsz : ¬ paddedSize [0x01, 0x02, 0x03].length > UINT_MAX := by decide
  have hno : (cvimgMain { littleEndian := true, charSigned := true } DEF_SIGNATURE
      0x80000000 0x10000 (fun _ => 0) [0x01, 0x02, 0x03]).overrun = false := by
    rw [cvimgMain_overrun_eq _ _ _ _ _ _ hsz]
    decide
  ⟨by decide, by decide, hno,
    cvimgMain_dataLen { littleEndian := true, charSigned := true } DEF_SIGNATURE 0x80000000
      0x10000 (fun _ => 0) [0x01, 0x02, 0x03] (by decide) (by decide) hno⟩

/-! ### The checksum over the chunks of a file -/

theorem beWordSum_replicate_zero (k : Nat) : beWordSum (List.replicate (2 * k) 0) = 0 := by
  induction k with
  | zero => rfl
  | succ k ih =>
    have e : 2 * (k + 1) = 2 * k + 1 + 1 := by omega
    rw [e, List.replicate_succ, List.replicate_succ]
    show 0 * 256 + 0 + beWordSum (List.replicate (2 * k) 0) = 0
    rw [ih]

/-- C12, evaluated on an input where the code departs from it. For the file of
`0x10001` bytes made of `0x10000` zero bytes followed by `0x01`, the read loop
returns a chunk of `0x10000` bytes and a final chunk of one byte, and makes no
store outside `buf`. `calcSum` returns 0 on both chunks, so the framer computes
the checksum `0x0000`; the payload as one sequence of big-endian 16-bit words,
its final unpaired byte added as it is, sums to 1, checksum `0xFFFF`. -/
theorem cvimgWrite_checksum_two_chunks (host : Host) (signature : List Nat)
    (startAddr burnAddr : Nat) (stack : Nat → Nat) :
    freadChunks (List.replicate 0x10000 0x00 ++ [0x01])
        = [List.replicate 0x10000 0x00, [0x01]] ∧
      calcSum host (List.replicate 0x10000 0x00) = 0 ∧ calcSum host [0x01] = 0 ∧
      (cvimgWrite host signature startAddr burnAddr stack
        (List.replicate 0x10000 0x00 ++ [0x01])).checksum = 0x0000 ∧
      (cvimgWrite host signature startAddr burnAddr stack
        (List.replicate 0x10000 0x00 ++ [0x01])).overrun = false ∧
      beWordSum (List.replicate 0x10000 0x00 ++ [0x01]) = 1 ∧
      negate16 (beWordSum (List.replicate 0x10000 0x00 ++ [0x01])) = 0xFFFF := by
  have hlenR : (List.replicate 0x10000 0x00).length = BUF_LEN := List.length_replicate _ _
  have hB : BUF_LEN = 0x10000 := rfl
  have hne : List.replicate 0x10000 0x00 ++ [0x01] ≠ [] := by
    intro hc
    have hl := congrArg List.length hc
    rw [List.length_append, hlenR] at hl
    exact absurd hl (by decide)
  have hchunks : freadChunks (List.replicate 0x10000 0x00 ++ [0x01])
      = [List.replicate 0x10000 0x00, [0x01]] := by
    rw [freadChunks_cons _ hne, List.take_left' hlenR, List.drop_left' hlenR,
      freadChunks_short [0x01] (by decide) (by decide)]
  have hzero : beWordSum (List.replicate 0x10000 0x00) = 0 := by
    have h := beWordSum_replicate_zero 0x8000
    have e : 2 * 0x8000 = 0x10000 := by decide
    rw [e] at h
    exact h
  have hev : (List.replicate 0x10000 0x00).length % 2 = 0 := by
    rw [hlenR, hB]
  have hcs : calcSum host (List.replicate 0x10000 0x00) = 0 := by
    rw [calcSum_even host _ (isBytes_replicate _ 0 (by decide)) hev, hzero]
    decide
  have hsum : beWordSum (List.replicate 0x10000 0x00 ++ [0x01]) = 1 := by
    rw [beWordSum_append_even _ _ hev, hzero]
    rfl
  refine ⟨hchunks, hcs, calcSum_singleton host 0x01, ?_, ?_, hsum, ?_⟩
  · unfold cvimgWrite
    simp only
    rw [writeChunks_checksum, hchunks]
    simp only [List.foldl_cons, List.foldl_nil, chunkStep_sum]
    rw [hcs, calcSum_singleton]
    decide
  · rw [cvimgWrite_overrun_eq, List.length_append, hlenR]
    decide
  · rw [hsum]
    decide

end FirmwareUtils
